import Mathlib

/-!
Verification of `src/nvidia/src/lib/base_utils.c`.

The C routines are modelled as Lean functions over `Nat` (machine words are
natural numbers reduced `% 2 ^ 32` or `% 2 ^ 64` exactly where the C
arithmetic wraps) and over `List α` (an array of `n` opaque elements of
`size` bytes each is a list of `n` values; `portMemCopy` of one element is
a list read/append, since every copy in the file moves whole elements at
element-aligned offsets).  C loops are modelled by structurally recursive
functions with an explicit fuel argument; a loop that the C code exits
after finitely many iterations is recovered by supplying enough fuel, and
an infinite C loop makes the model return `none` for every fuel.
-/

namespace BaseUtils

/-- Modulus of `NvU32` arithmetic. -/
def u32Mod : Nat := 2 ^ 32

/-! ## nvMergeSort (base_utils.c lines 150-239)

`EL(k)`, i.e. `(char *) array + (k) * size`, is modelled as `arr.getD k default`:
reading element number `k` of the array.  The scratch buffer `mergeArray` /
`dest` is modelled as the list of elements copied to it so far. -/

/-- The inner `while(1)` two-pointer merge loop of `nvMergeSort`
(lines 184-205).  State: `lo`/`hi` are the run cursors, `dest` is the
content of the scratch buffer.  Each iteration copies one element and
breaks out (returning the final state) when the run it took from is
exhausted.  `fuel` only bounds the number of iterations; callers pass
enough fuel for the loop to finish, as proved below. -/
def mergeLoop {α : Type} [Inhabited α] (less : α → α → Bool) (arr : List α)
    (loMax hiMax : Nat) : Nat → Nat → Nat → List α → List α × Nat × Nat
  | 0, lo, hi, dest => (dest, lo, hi)
  | fuel + 1, lo, hi, dest =>
    if less (arr.getD lo default) (arr.getD hi default) then
      if lo + 1 ≥ loMax then (dest ++ [arr.getD lo default], lo + 1, hi)
      else mergeLoop less arr loMax hiMax fuel (lo + 1) hi (dest ++ [arr.getD lo default])
    else
      if hi + 1 ≥ hiMax then (dest ++ [arr.getD hi default], lo, hi + 1)
      else mergeLoop less arr loMax hiMax fuel lo (hi + 1) (dest ++ [arr.getD hi default])

/-- One of the two "copy remaining items" loops of `nvMergeSort`
(lines 211-225): `while (lo < loMax) { copy EL(lo); dest += size; lo++; }`. -/
def drainLoop {α : Type} [Inhabited α] (arr : List α) : Nat → Nat → Nat → List α → List α
  | 0, _, _, dest => dest
  | fuel + 1, lo, loMax, dest =>
    if lo < loMax then drainLoop arr fuel (lo + 1) loMax (dest ++ [arr.getD lo default])
    else dest

/-- The merge loop followed by the two drain loops (lines 184-225): run the
`while(1)` merge, then drain whichever run still has elements into the
scratch buffer. -/
def mergeDrain {α : Type} [Inhabited α] (less : α → α → Bool) (arr : List α)
    (loMax hiMax fuel lo hi : Nat) (dest : List α) : List α :=
  match mergeLoop less arr loMax hiMax fuel lo hi dest with
  | (d, lo2, hi2) => drainLoop arr hiMax hi2 hiMax (drainLoop arr loMax lo2 loMax d)

/-- Content of the scratch buffer after one complete block merge of
`nvMergeSort` (lines 172-225): the `while(1)` merge of runs
`[i, i+m)` and `[i+m, hiMax)` followed by the two drain loops, where
`loMax = i + m` and `hiMax = NV_MIN(n, i + 2*m)` with 32-bit addition.
The fuel `loMax + hiMax + 1` exceeds the merge loop's iteration count. -/
def mergeDest {α : Type} [Inhabited α] (less : α → α → Bool) (n m i : Nat)
    (arr : List α) : List α :=
  mergeDrain less arr (i + m) (min n ((i + 2 * m) % u32Mod))
    ((i + m) + min n ((i + 2 * m) % u32Mod) + 1) i (i + m) []

/-- Copy `src.length` elements of `src` over `arr` starting at element `pos`:
the final `portMemCopy(EL(loMin), dest - mergeArray, mergeArray, ...)` of a
block merge (lines 231-236). -/
def writeBack {α : Type} (arr : List α) (pos : Nat) (src : List α) : List α :=
  arr.take pos ++ src ++ arr.drop (pos + src.length)

/-- One complete block merge of `nvMergeSort` (lines 172-236): merge the two
adjacent runs starting at element `i` into the scratch buffer and copy the
merged data back over the array. -/
def mergeBlock {α : Type} [Inhabited α] (less : α → α → Bool) (n m i : Nat)
    (arr : List α) : List α :=
  writeBack arr i (mergeDest less n m i arr)

/-- The inner pass loop `for (i = 0; i < (n - m); i += 2 * m)` of
`nvMergeSort` (line 170).  `n - m` is exact here because the outer loop
only enters with `m ≤ n`; `i += 2 * m` is 32-bit addition. -/
def passLoop {α : Type} [Inhabited α] (less : α → α → Bool) (n m : Nat) :
    Nat → Nat → List α → Option (List α)
  | 0, _, _ => none
  | fuel + 1, i, arr =>
    if i < n - m then
      passLoop less n m fuel ((i + 2 * m) % u32Mod) (mergeBlock less n m i arr)
    else some arr

/-- The outer loop `for (m = 1; m <= n; m *= 2)` of `nvMergeSort`
(line 169); `m *= 2` is 32-bit multiplication, so `m` wraps to `0` after
`2 ^ 31`. -/
def sortLoop {α : Type} [Inhabited α] (less : α → α → Bool) (n : Nat) :
    Nat → Nat → List α → Option (List α)
  | 0, _, _ => none
  | fuel + 1, m, arr =>
    if m ≤ n then
      match passLoop less n m fuel 0 arr with
      | none => none
      | some arr2 => sortLoop less n fuel ((2 * m) % u32Mod) arr2
    else some arr

/-- `nvMergeSort(array, n, tempBuffer, size, less)` (lines 152-239).
`tempBuffer` is modelled by the scratch lists inside `mergeBlock` and
`size` plays no role at the element level (every copy moves whole
elements); `some out` is the array contents when the call returns after at
most `fuel` loop iterations, `none` when it has not returned yet. -/
def nvMergeSort {α : Type} [Inhabited α] (less : α → α → Bool) (arr : List α)
    (n : Nat) (fuel : Nat) : Option (List α) :=
  sortLoop less n fuel 1 arr

/-- Termination of the C call: some finite fuel makes the model return. -/
def nvMergeSortTerminates {α : Type} [Inhabited α] (less : α → α → Bool)
    (arr : List α) (n : Nat) : Prop :=
  ∃ fuel out, nvMergeSort less arr n fuel = some out

/-! ## Bit-field helpers (base_utils.c lines 67-135) -/

/-- Bitwise complement of a 32-bit word: C `~` on `NvU32`. -/
def compl32 (w : Nat) : Nat := w ^^^ (2 ^ 32 - 1)

/-- Scan bits `j, j+1, ...` of `t` (at most `fuel` of them) for the first
set bit; returns the index just past the scanned range when none is set. -/
def scanLowest (t : Nat) : Nat → Nat → Nat
  | 0, j => j
  | k + 1, j => if t.testBit j then j else scanLowest t k (j + 1)

/-- Modelled from the spec: the macro `LOWESTBITIDX_32` (declared outside
this repository slice) replaces a 32-bit word by the index of its lowest
set bit, which is what "returns the index of the lowest zero bit" of the
complemented word requires.  Only applied to nonzero words. -/
def lowestSetBitIdx32 (t : Nat) : Nat := scanLowest t 32 0

/-- Scan bits `k-1, k-2, ..., 0` of `t` for the first (i.e. highest) set
bit; returns `0` when none is set. -/
def scanHighest (t : Nat) : Nat → Nat
  | 0 => 0
  | k + 1 => if t.testBit k then k else scanHighest t k

/-- Modelled from the spec: the macro `HIGHESTBITIDX_32` (declared outside
this repository slice) replaces a 32-bit word by the index of its highest
set bit.  Only applied to nonzero words. -/
def highestSetBitIdx32 (t : Nat) : Nat := scanHighest t 32

/-- Loop of `nvBitFieldLSZero` (lines 71-79): word index `i` runs up from
`0`; a word with a zero bit stops the scan.  `sizeof(NvU32) * 8 = 32`.
Both returns are truncated to `NvU32`: `count * 32` is a 32-bit product
and `temp + i * sizeof(NvU32) * 8` is converted to `NvU32` on return. -/
def lsZeroGo (field : List Nat) (count : Nat) : Nat → Nat → Nat
  | 0, _ => (count * 32) % 2 ^ 32
  | k + 1, i =>
    let temp := compl32 (field.getD i 0)
    if temp ≠ 0 then (lowestSetBitIdx32 temp + i * (4 * 8)) % 2 ^ 32
    else lsZeroGo field count k (i + 1)

/-- `nvBitFieldLSZero(pBitField32, count)` (lines 67-82). -/
def nvBitFieldLSZero (field : List Nat) (count : Nat) : Nat :=
  lsZeroGo field count count 0

/-- Loop of `nvBitFieldMSZero` (lines 105-115): word index `j` runs down
from `count - 1` while the iteration counter `i` runs `count` times.
Both returns are truncated to `NvU32` as in `lsZeroGo`. -/
def msZeroGo (field : List Nat) (count : Nat) : Nat → Nat → Nat
  | 0, _ => (count * 32) % 2 ^ 32
  | k + 1, j =>
    let temp := compl32 (field.getD j 0)
    if temp ≠ 0 then (highestSetBitIdx32 temp + j * (4 * 8)) % 2 ^ 32
    else msZeroGo field count k (j - 1)

/-- `nvBitFieldMSZero(pBitField32, count)` (lines 99-118).  For
`count = 0` the initial `j = count - 1` underflows in C but the loop body
never runs, which the model reproduces (the fuel is already `0`). -/
def nvBitFieldMSZero (field : List Nat) (count : Nat) : Nat :=
  msZeroGo field count count (count - 1)

/-- Modelled from the spec: the macro `NVBIT(b)` (declared outside this
repository slice) is the 32-bit word with exactly bit `b` set, i.e.
`1 << b`. -/
def NVBIT (b : Nat) : Nat := 1 <<< b

/-- `nvBitFieldTest(pBitField, count, bit)` (lines 121-125).  The range
check `bit < count * 32` multiplies in `NvU32`, so the product wraps
`mod 2 ^ 32`. -/
def nvBitFieldTest (field : List Nat) (count bit : Nat) : Bool :=
  if bit < (count * 32) % 2 ^ 32 then (field.getD (bit / 32) 0 &&& NVBIT (bit % 32)) != 0
  else false

/-- `nvBitFieldSet(pBitField, count, bit, value)` (lines 128-135); `count`
is only used by the `NV_ASSERT` in C, the store itself is to word
`bit / 32`. -/
def nvBitFieldSet (field : List Nat) (_count bit : Nat) (value : Bool) : List Nat :=
  field.set (bit / 32)
    ((field.getD (bit / 32) 0 &&& compl32 (NVBIT (bit % 32))) |||
      (if value then NVBIT (bit % 32) else 0))

/-! ## nvMsb64 (base_utils.c lines 316-331) -/

/-- Bitwise complement of a 64-bit word: C `~` on `NvU64`. -/
def compl64 (w : Nat) : Nat := w ^^^ (2 ^ 64 - 1)

/-- The six `x |= (x >> k)` statements of `nvMsb64` (lines 318-323): smear
the most significant set bit of `x0` into all lower positions. -/
def smear64 (x0 : Nat) : Nat :=
  let x1 := x0 ||| (x0 >>> 1)
  let x2 := x1 ||| (x1 >>> 2)
  let x3 := x2 ||| (x2 >>> 4)
  let x4 := x3 ||| (x3 >>> 8)
  let x5 := x4 ||| (x4 >>> 16)
  x5 ||| (x5 >>> 32)

/-- `nvMsb64(x)` (lines 316-331): smear the most significant set bit into
all lower positions, then `return (x & ~(x >> 1))` clears everything but
the top bit. -/
def nvMsb64 (x0 : Nat) : Nat :=
  smear64 x0 &&& compl64 (smear64 x0 >>> 1)

/-! ## nvU32ToStr (base_utils.c lines 343-382) -/

/-- Digit-to-byte conversion of `nvU32ToStr` (lines 359-366):
digit `i` becomes `'0' + i` when `i < 10` and `'a' - 10 + i` otherwise
(`'0' = 48`, `'a' - 10 = 87`). -/
def digitChar (i : Nat) : Nat := if i < 10 then i + 48 else i + 87

/-- The `while (v || tp == tmp)` digit-extraction loop of `nvU32ToStr`
(lines 357-369): `acc` is the content of `tmp`, least significant digit
first.  A 32-bit value has at most 32 digits in any base `≥ 2`, so the
fuel of 33 supplied by `nvU32ToStr` never runs out. -/
def u32ToStrGo (base : Nat) : Nat → Nat → List Nat → List Nat
  | 0, _, acc => acc
  | fuel + 1, v, acc =>
    if v ≠ 0 ∨ acc = [] then u32ToStrGo base fuel (v / base) (acc ++ [digitChar (v % base)])
    else acc

/-- `nvU32ToStr(value, string, base)` (lines 343-382): `none` is the C
null return, `some s` is the byte content written into the caller's
buffer including the terminating zero byte; the digits of `tmp` are copied
to the output in reverse (most significant first, lines 371-379). -/
def nvU32ToStr (value : Nat) (base : Nat) : Option (List Nat) :=
  if base > 36 then none
  else if base ≤ 1 then none
  else some ((u32ToStrGo base 33 value []).reverse ++ [0])

end BaseUtils

namespace BaseUtils

theorem bool_eq_of_iff {a b : Bool} (h : a = true ↔ b = true) : a = b := by
  cases a <;> cases b <;> simp_all

theorem or_shiftRight_testBit (y W j : Nat) :
    (y ||| (y >>> W)).testBit j = (y.testBit j || y.testBit (W + j)) := by
  simp [Nat.testBit_or, Nat.testBit_shiftRight]

theorem smear_step {x y W : Nat}
    (h : ∀ j, y.testBit j = true ↔ ∃ k, k < W ∧ x.testBit (j + k) = true) (j : Nat) :
    (y ||| (y >>> W)).testBit j = true ↔ ∃ k, k < 2 * W ∧ x.testBit (j + k) = true := by
  rw [or_shiftRight_testBit, Bool.or_eq_true, h j, h (W + j)]
  constructor
  · rintro (⟨k, hk, hb⟩ | ⟨k, hk, hb⟩)
    · exact ⟨k, by omega, hb⟩
    · exact ⟨W + k, by omega, by rwa [show j + (W + k) = W + j + k by omega]⟩
  · rintro ⟨k, hk, hb⟩
    by_cases hkW : k < W
    · exact Or.inl ⟨k, hkW, hb⟩
    · exact Or.inr ⟨k - W, by omega, by rwa [show W + j + (k - W) = j + k by omega]⟩

theorem smear64_testBit (x j : Nat) :
    (smear64 x).testBit j = true ↔ ∃ k, k < 64 ∧ x.testBit (j + k) = true := by
  have h0 : ∀ j, x.testBit j = true ↔ ∃ k, k < 1 ∧ x.testBit (j + k) = true := by
    intro j
    constructor
    · exact fun hb => ⟨0, Nat.zero_lt_one, by simpa using hb⟩
    · rintro ⟨k, hk, hb⟩
      have hk0 : k = 0 := by omega
      subst hk0
      simpa using hb
  have h1 : ∀ j, (x ||| (x >>> 1)).testBit j = true ↔
      ∃ k, k < 2 ∧ x.testBit (j + k) = true := by
    intro j; simpa using smear_step h0 j
  have h2 : ∀ j, ((x ||| (x >>> 1)) ||| ((x ||| (x >>> 1)) >>> 2)).testBit j = true ↔
      ∃ k, k < 4 ∧ x.testBit (j + k) = true := by
    intro j; simpa using smear_step h1 j
  have h3 := fun j => smear_step h2 j
  have h4 := fun j => smear_step h3 j
  have h5 := fun j => smear_step h4 j
  have h6 := fun j => smear_step h5 j
  have := h6 j
  norm_num at this
  simpa [smear64] using this

theorem smear64_testBit_le {x : Nat} (hx : x < 2 ^ 64) (j : Nat) :
    (smear64 x).testBit j = true ↔ 2 ^ j ≤ x := by
  rw [smear64_testBit]
  constructor
  · rintro ⟨k, _, hb⟩
    have h1 : 2 ^ j ≤ 2 ^ (j + k) := Nat.pow_le_pow_right (by omega) (by omega)
    exact le_trans h1 (Nat.testBit_implies_ge hb)
  · intro hle
    have hne : x >>> j ≠ 0 := by
      rw [Nat.shiftRight_eq_div_pow]
      have h1 : 1 ≤ x / 2 ^ j := (Nat.one_le_div_iff (Nat.two_pow_pos j)).mpr hle
      omega
    obtain ⟨i, hi⟩ := Nat.ne_zero_implies_bit_true hne
    rw [Nat.testBit_shiftRight] at hi
    refine ⟨i, ?_, hi⟩
    have h2 : 2 ^ (j + i) ≤ x := Nat.testBit_implies_ge hi
    by_contra hko
    push_neg at hko
    have h3 : 2 ^ 64 ≤ 2 ^ (j + i) := Nat.pow_le_pow_right (by omega) (by omega)
    omega

theorem compl64_shiftRight_testBit (y j : Nat) (hj : j < 64) :
    (compl64 (y >>> 1)).testBit j = !(y.testBit (1 + j)) := by
  rw [compl64, Nat.testBit_xor, Nat.testBit_shiftRight, Nat.testBit_two_pow_sub_one]
  simp [hj]

theorem nvMsb64_testBit {x : Nat} (hx : x < 2 ^ 64) (j : Nat) :
    (nvMsb64 x).testBit j = true ↔ (2 ^ j ≤ x ∧ x < 2 ^ (j + 1)) := by
  rw [show nvMsb64 x = smear64 x &&& compl64 (smear64 x >>> 1) from rfl]
  rw [Nat.testBit_and, Bool.and_eq_true]
  by_cases hj : j < 64
  · rw [compl64_shiftRight_testBit _ _ hj, smear64_testBit_le hx,
      Bool.not_eq_true', ← Bool.not_eq_true, smear64_testBit_le hx]
    rw [show 1 + j = j + 1 by omega]
    constructor
    · rintro ⟨h1, h2⟩
      exact ⟨h1, by omega⟩
    · rintro ⟨h1, h2⟩
      exact ⟨h1, by omega⟩
  · constructor
    · rintro ⟨h1, _⟩
      rw [smear64_testBit_le hx] at h1
      have h3 : 2 ^ 64 ≤ 2 ^ j := Nat.pow_le_pow_right (by omega) (by omega)
      omega
    · rintro ⟨h1, _⟩
      have h3 : 2 ^ 64 ≤ 2 ^ j := Nat.pow_le_pow_right (by omega) (by omega)
      omega

theorem nvMsb64_eq_pow_log2 {x : Nat} (hx : x < 2 ^ 64) (hx0 : x ≠ 0) :
    nvMsb64 x = 2 ^ Nat.log2 x := by
  have hL1 : 2 ^ Nat.log2 x ≤ x := Nat.log2_self_le hx0
  have hL2 : x < 2 ^ (Nat.log2 x + 1) := Nat.lt_log2_self
  apply Nat.eq_of_testBit_eq
  intro j
  apply bool_eq_of_iff
  rw [nvMsb64_testBit hx, Nat.testBit_two_pow]
  constructor
  · rintro ⟨h1, h2⟩
    simp only [decide_eq_true_eq]
    by_contra hne
    rcases Nat.lt_or_ge (Nat.log2 x) j with hlt | hge
    · have : 2 ^ (Nat.log2 x + 1) ≤ 2 ^ j := Nat.pow_le_pow_right (by omega) (by omega)
      omega
    · have hlt2 : Nat.log2 x < j ∨ j < Nat.log2 x := by omega
      rcases hlt2 with h | h
      · omega
      · have : 2 ^ (j + 1) ≤ 2 ^ Nat.log2 x := Nat.pow_le_pow_right (by omega) (by omega)
        omega
  · intro h
    simp only [decide_eq_true_eq] at h
    subst h
    exact ⟨hL1, hL2⟩

/-- Claim C9: `nvMsb64` keeps exactly the most significant set bit: for a
64-bit `x ≠ 0` the result is `2 ^ floor(log2 x)`, for `x = 0` it is `0`,
and the input `0b0110` yields `0b0100`. -/
theorem claim_C9 (x : Nat) (hx : x < 2 ^ 64) :
    (x ≠ 0 → nvMsb64 x = 2 ^ Nat.log2 x) ∧ nvMsb64 0 = 0 ∧ nvMsb64 6 = 4 := by
  refine ⟨fun hx0 => nvMsb64_eq_pow_log2 hx hx0, by decide, by decide⟩

/-- Claim C9 witness: the theorem applied at `x = 6`. -/
theorem claim_C9_witness :
    (6 : Nat) < 2 ^ 64 ∧
      (((6 : Nat) ≠ 0 → nvMsb64 6 = 2 ^ Nat.log2 6) ∧ nvMsb64 0 = 0 ∧ nvMsb64 6 = 4) :=
  ⟨by norm_num, claim_C9 6 (by norm_num)⟩

end BaseUtils
namespace BaseUtils

theorem and_NVBIT_bne (x r : Nat) : ((x &&& NVBIT r) != 0) = x.testBit r := by
  apply bool_eq_of_iff
  rw [bne_iff_ne, NVBIT, Nat.one_shiftLeft]
  constructor
  · intro hne
    obtain ⟨i, hi⟩ := Nat.ne_zero_implies_bit_true hne
    rw [Nat.testBit_and, Bool.and_eq_true, Nat.testBit_two_pow] at hi
    obtain ⟨h1, h2⟩ := hi
    simp only [decide_eq_true_eq] at h2
    subst h2
    exact h1
  · intro hb h0
    have h1 : (x &&& 2 ^ r).testBit r = false := by
      rw [h0]; exact Nat.zero_testBit r
    rw [Nat.testBit_and, Nat.testBit_two_pow] at h1
    simp [hb] at h1

theorem testBit_u32max (k : Nat) : Nat.testBit 4294967295 k = decide (k < 32) := by
  rw [show (4294967295 : Nat) = 2 ^ 32 - 1 by norm_num, Nat.testBit_two_pow_sub_one]

theorem setWord_testBit (w r k : Nat) (v : Bool) (hr : r < 32) (hw : w < 2 ^ 32) :
    ((w &&& compl32 (NVBIT r)) ||| (if v then NVBIT r else 0)).testBit k
      = if k = r then v else w.testBit k := by
  rw [NVBIT, Nat.one_shiftLeft, compl32]
  rcases Nat.lt_or_ge k 32 with hk | hk
  · by_cases hkr : k = r
    · subst hkr
      cases v <;>
        simp [Nat.testBit_or, Nat.testBit_and, Nat.testBit_xor, Nat.testBit_two_pow,
          Nat.testBit_two_pow_sub_one, testBit_u32max, hk]
    · cases v <;>
        simp [Nat.testBit_or, Nat.testBit_and, Nat.testBit_xor, Nat.testBit_two_pow,
          Nat.testBit_two_pow_sub_one, testBit_u32max, hk, hkr, Ne.symm hkr]
  · have hxk : w.testBit k = false :=
      Nat.testBit_eq_false_of_lt
        (lt_of_lt_of_le hw (Nat.pow_le_pow_right (by omega) hk))
    have hkr : k ≠ r := by omega
    have hk2 : ¬ k < 32 := by omega
    cases v <;>
      simp [Nat.testBit_or, Nat.testBit_and, Nat.testBit_xor, Nat.testBit_two_pow,
        Nat.testBit_two_pow_sub_one, testBit_u32max, hk2, hkr, Ne.symm hkr, hxk]

/-- Claim C10 counterexample: at `count = 2 ^ 27` the `NvU32` product
`count * 32` in `nvBitFieldTest`'s range check wraps to `0`, so the test
rejects every bit as out of range and set-then-test returns `NV_FALSE`,
not the value written, even though `bit = 0` is in range in the claim's
sense (`0 < count * 32`). -/
theorem claim_C10_cex :
    (0 : Nat) < 2 ^ 27 * 32
    ∧ nvBitFieldTest (nvBitFieldSet (List.replicate (2 ^ 27) 0) (2 ^ 27) 0 true) (2 ^ 27) 0
      = false
    ∧ (false : Bool) ≠ true := by
  refine ⟨by norm_num, ?_, by decide⟩
  rw [nvBitFieldTest, if_neg (by norm_num)]

/-- Claim C10 (amended): for `count < 2 ^ 27` (so that the 32-bit product
`count * 32` in the range check does not wrap), setting bit `bit` of a
bit-field then testing it gives the value written; every other in-range
bit tests as before, every word other than word `bit / 32` is unchanged,
and the word count is unchanged. -/
theorem claim_C10_amended (field : List Nat) (count bit : Nat) (v : Bool)
    (hcount : count < 2 ^ 27)
    (hc : count = field.length) (hw : ∀ w ∈ field, w < 2 ^ 32) (hb : bit < count * 32) :
    nvBitFieldTest (nvBitFieldSet field count bit v) count bit = v
    ∧ (∀ b2, b2 < count * 32 → b2 ≠ bit →
        nvBitFieldTest (nvBitFieldSet field count bit v) count b2 = nvBitFieldTest field count b2)
    ∧ (∀ wi, wi ≠ bit / 32 →
        (nvBitFieldSet field count bit v).getD wi 0 = field.getD wi 0)
    ∧ (nvBitFieldSet field count bit v).length = field.length := by
  have hidx : bit / 32 < field.length := by omega
  have hwlt : field.getD (bit / 32) 0 < 2 ^ 32 := by
    have hmem : field.getD (bit / 32) 0 ∈ field := by
      rw [List.getD_eq_getElem?_getD, List.getElem?_eq_getElem hidx]
      exact List.getElem_mem hidx
    exact hw _ hmem
  have hset_same : ∀ w2, (field.set (bit / 32) w2).getD (bit / 32) 0 = w2 := by
    intro w2
    rw [List.getD_eq_getElem?_getD, List.getElem?_set_self hidx]
    rfl
  have hset_ne : ∀ w2 j, j ≠ bit / 32 → (field.set (bit / 32) w2).getD j 0 = field.getD j 0 := by
    intro w2 j hj
    rw [List.getD_eq_getElem?_getD, List.getD_eq_getElem?_getD,
      List.getElem?_set_ne (Ne.symm hj)]
  have hmod : (count * 32) % 2 ^ 32 = count * 32 := Nat.mod_eq_of_lt (by omega)
  refine ⟨?_, ?_, ?_, by simp [nvBitFieldSet]⟩
  · rw [nvBitFieldTest, hmod, if_pos hb, nvBitFieldSet, hset_same, and_NVBIT_bne,
      setWord_testBit _ _ _ _ (by omega) hwlt, if_pos rfl]
  · intro b2 hb2 hne
    rw [nvBitFieldTest, nvBitFieldTest, hmod, if_pos hb2, if_pos hb2, nvBitFieldSet]
    by_cases hq : b2 / 32 = bit / 32
    · rw [hq, hset_same, and_NVBIT_bne, and_NVBIT_bne,
        setWord_testBit _ _ _ _ (by omega) hwlt, if_neg (by omega)]
    · rw [hset_ne _ _ hq]
  · intro wi hwi
    rw [nvBitFieldSet, hset_ne _ _ hwi]

/-- Claim C10 amended witness: the theorem applied to the one-word field
`[5]` with `bit = 1`, `v = true`. -/
theorem claim_C10_amended_witness :
    ((1 : Nat) < 2 ^ 27 ∧ (1 : Nat) = ([5] : List Nat).length
      ∧ (∀ w ∈ ([5] : List Nat), w < 2 ^ 32) ∧ (1 : Nat) < 1 * 32)
    ∧ (nvBitFieldTest (nvBitFieldSet [5] 1 1 true) 1 1 = true
      ∧ (∀ b2, b2 < 1 * 32 → b2 ≠ 1 →
          nvBitFieldTest (nvBitFieldSet [5] 1 1 true) 1 b2 = nvBitFieldTest [5] 1 b2)
      ∧ (∀ wi, wi ≠ 1 / 32 →
          (nvBitFieldSet [5] 1 1 true).getD wi 0 = [5].getD wi 0)
      ∧ (nvBitFieldSet [5] 1 1 true).length = ([5] : List Nat).length) :=
  ⟨⟨by norm_num, rfl, by decide, by decide⟩,
    claim_C10_amended [5] 1 1 true (by norm_num) rfl (by decide) (by decide)⟩

end BaseUtils
namespace BaseUtils

/-- Bit number `X` of the bit-field: `pBitField[X/32] & (1 << (X%32))`. -/
def bitAt (field : List Nat) (X : Nat) : Bool :=
  (field.getD (X / 32) 0).testBit (X % 32)

theorem getD_mem_of_lt {l : List Nat} {i : Nat} (h : i < l.length) : l.getD i 0 ∈ l := by
  rw [List.getD_eq_getElem?_getD, List.getElem?_eq_getElem h]
  exact List.getElem_mem h

theorem compl32_lt {w : Nat} (hw : w < 2 ^ 32) : compl32 w < 2 ^ 32 :=
  Nat.xor_lt_two_pow hw (by norm_num)

theorem compl32_testBit (w a : Nat) (ha : a < 32) :
    (compl32 w).testBit a = !(w.testBit a) := by
  rw [compl32, Nat.testBit_xor, Nat.testBit_two_pow_sub_one]
  simp [ha, Bool.xor_true]

theorem word_full_iff {w : Nat} (hw : w < 2 ^ 32) :
    compl32 w = 0 ↔ ∀ a, a < 32 → w.testBit a = true := by
  rw [compl32, Nat.xor_eq_zero]
  constructor
  · intro h a ha
    subst h
    rw [Nat.testBit_two_pow_sub_one]
    simpa using ha
  · intro h
    apply Nat.eq_of_testBit_eq
    intro i
    rw [Nat.testBit_two_pow_sub_one]
    rcases Nat.lt_or_ge i 32 with hi | hi
    · rw [h i hi]
      simp [hi]
    · rw [Nat.testBit_eq_false_of_lt
        (lt_of_lt_of_le hw (Nat.pow_le_pow_right (by omega) hi))]
      simp
      omega

theorem scanLowest_cases (t : Nat) :
    ∀ k j, (scanLowest t k j = j + k ∧ ∀ a, j ≤ a → a < j + k → t.testBit a = false)
      ∨ (j ≤ scanLowest t k j ∧ scanLowest t k j < j + k
          ∧ t.testBit (scanLowest t k j) = true
          ∧ ∀ a, j ≤ a → a < scanLowest t k j → t.testBit a = false) := by
  intro k
  induction k with
  | zero =>
    intro j
    exact Or.inl ⟨by simp [scanLowest], fun a h1 h2 => by omega⟩
  | succ k ih =>
    intro j
    by_cases hbit : t.testBit j
    · rw [scanLowest, if_pos hbit]
      exact Or.inr ⟨le_refl j, by omega, hbit, fun a h1 h2 => by omega⟩
    · rw [scanLowest, if_neg hbit]
      rw [Bool.not_eq_true] at hbit
      rcases ih (j + 1) with ⟨heq, hall⟩ | ⟨h1, h2, h3, h4⟩
      · refine Or.inl ⟨by rw [heq]; omega, fun a ha1 ha2 => ?_⟩
        rcases Nat.eq_or_lt_of_le ha1 with heqa | hlt
        · rw [← heqa]; exact hbit
        · exact hall a (by omega) (by omega)
      · refine Or.inr ⟨by omega, by omega, h3, fun a ha1 ha2 => ?_⟩
        rcases Nat.eq_or_lt_of_le ha1 with heqa | hlt
        · rw [← heqa]; exact hbit
        · exact h4 a (by omega) ha2

theorem lowestSetBitIdx32_spec {t : Nat} (ht : t ≠ 0) (hlt : t < 2 ^ 32) :
    lowestSetBitIdx32 t < 32 ∧ t.testBit (lowestSetBitIdx32 t) = true
      ∧ ∀ a, a < lowestSetBitIdx32 t → t.testBit a = false := by
  unfold lowestSetBitIdx32
  rcases scanLowest_cases t 32 0 with ⟨heq, hall⟩ | ⟨h1, h2, h3, h4⟩
  · exfalso
    apply ht
    apply Nat.zero_of_testBit_eq_false
    intro i
    rcases Nat.lt_or_ge i 32 with hi | hi
    · exact hall i (by omega) (by omega)
    · exact Nat.testBit_eq_false_of_lt
        (lt_of_lt_of_le hlt (Nat.pow_le_pow_right (by omega) hi))
  · exact ⟨by omega, h3, fun a ha => h4 a (by omega) ha⟩

theorem scanHighest_cases (t : Nat) :
    ∀ k, (scanHighest t k = 0 ∧ ∀ a, a < k → t.testBit a = false)
      ∨ (scanHighest t k < k ∧ t.testBit (scanHighest t k) = true
          ∧ ∀ a, scanHighest t k < a → a < k → t.testBit a = false) := by
  intro k
  induction k with
  | zero => exact Or.inl ⟨rfl, fun a h => by omega⟩
  | succ k ih =>
    by_cases hbit : t.testBit k
    · rw [scanHighest, if_pos hbit]
      exact Or.inr ⟨by omega, hbit, fun a h1 h2 => by omega⟩
    · rw [scanHighest, if_neg hbit]
      rw [Bool.not_eq_true] at hbit
      rcases ih with ⟨heq, hall⟩ | ⟨h1, h2, h3⟩
      · refine Or.inl ⟨heq, fun a ha => ?_⟩
        rcases Nat.lt_or_ge a k with h | h
        · exact hall a h
        · have heqa : a = k := by omega
          rw [heqa]; exact hbit
      · refine Or.inr ⟨by omega, h2, fun a ha1 ha2 => ?_⟩
        rcases Nat.lt_or_ge a k with h | h
        · exact h3 a ha1 h
        · have heqa : a = k := by omega
          rw [heqa]; exact hbit

theorem highestSetBitIdx32_spec {t : Nat} (ht : t ≠ 0) (hlt : t < 2 ^ 32) :
    highestSetBitIdx32 t < 32 ∧ t.testBit (highestSetBitIdx32 t) = true
      ∧ ∀ a, highestSetBitIdx32 t < a → t.testBit a = false := by
  unfold highestSetBitIdx32
  rcases scanHighest_cases t 32 with ⟨heq, hall⟩ | ⟨h1, h2, h3⟩
  · exfalso
    apply ht
    apply Nat.zero_of_testBit_eq_false
    intro i
    rcases Nat.lt_or_ge i 32 with hi | hi
    · exact hall i hi
    · exact Nat.testBit_eq_false_of_lt
        (lt_of_lt_of_le hlt (Nat.pow_le_pow_right (by omega) hi))
  · refine ⟨h1, h2, fun a ha => ?_⟩
    rcases Nat.lt_or_ge a 32 with h | h
    · exact h3 a ha h
    · exact Nat.testBit_eq_false_of_lt
        (lt_of_lt_of_le hlt (Nat.pow_le_pow_right (by omega) h))

theorem lsZeroGo_spec (field : List Nat) (count : Nat) (hcb : count * 32 < 2 ^ 32)
    (hc : count = field.length) (hw : ∀ w ∈ field, w < 2 ^ 32) :
    ∀ k i, i + k = count →
      (lsZeroGo field count k i = count * 32
          ∧ ∀ X, i * 32 ≤ X → X < count * 32 → bitAt field X = true)
      ∨ (i * 32 ≤ lsZeroGo field count k i ∧ lsZeroGo field count k i < count * 32
          ∧ bitAt field (lsZeroGo field count k i) = false
          ∧ ∀ Y, i * 32 ≤ Y → Y < lsZeroGo field count k i → bitAt field Y = true) := by
  intro k
  induction k with
  | zero =>
    intro i hi
    exact Or.inl ⟨by rw [lsZeroGo]; exact Nat.mod_eq_of_lt hcb, fun X h1 h2 => by omega⟩
  | succ k ih =>
    intro i hi
    have hilt : i < field.length := by omega
    have hwlt : field.getD i 0 < 2 ^ 32 := hw _ (getD_mem_of_lt hilt)
    rw [lsZeroGo]
    by_cases hz : compl32 (field.getD i 0) = 0
    · rw [if_neg (fun hcon => hcon hz)]
      have hfull : ∀ a, a < 32 → (field.getD i 0).testBit a = true := (word_full_iff hwlt).mp hz
      rcases ih (i + 1) (by omega) with ⟨heq, hall⟩ | ⟨h1, h2, h3, h4⟩
      · refine Or.inl ⟨heq, fun X hx1 hx2 => ?_⟩
        rcases Nat.lt_or_ge X ((i + 1) * 32) with hX | hX
        · have hdiv : X / 32 = i := by omega
          rw [bitAt, hdiv]
          exact hfull _ (by omega)
        · exact hall X hX hx2
      · refine Or.inr ⟨by omega, h2, h3, fun Y hy1 hy2 => ?_⟩
        rcases Nat.lt_or_ge Y ((i + 1) * 32) with hY | hY
        · have hdiv : Y / 32 = i := by omega
          rw [bitAt, hdiv]
          exact hfull _ (by omega)
        · exact h4 Y hY hy2
    · rw [if_pos hz]
      have hclt : compl32 (field.getD i 0) < 2 ^ 32 := compl32_lt hwlt
      obtain ⟨hl32, hbit, hbelow⟩ := lowestSetBitIdx32_spec hz hclt
      have hrm : (lowestSetBitIdx32 (compl32 (field.getD i 0)) + i * (4 * 8)) % 2 ^ 32
          = lowestSetBitIdx32 (compl32 (field.getD i 0)) + i * (4 * 8) :=
        Nat.mod_eq_of_lt (by omega)
      rw [hrm]
      refine Or.inr ⟨by omega, by omega, ?_, ?_⟩
      · have hdiv : (lowestSetBitIdx32 (compl32 (field.getD i 0)) + i * (4 * 8)) / 32 = i := by
          omega
        have hmod : (lowestSetBitIdx32 (compl32 (field.getD i 0)) + i * (4 * 8)) % 32
            = lowestSetBitIdx32 (compl32 (field.getD i 0)) := by omega
        rw [bitAt, hdiv, hmod]
        rw [compl32_testBit _ _ hl32] at hbit
        simpa using hbit
      · intro Y hy1 hy2
        have hdiv : Y / 32 = i := by omega
        rw [bitAt, hdiv]
        have hcb := hbelow (Y % 32) (by omega)
        rw [compl32_testBit _ _ (by omega)] at hcb
        simpa using hcb

theorem msZeroGo_spec (field : List Nat) (count : Nat) (hcb : count * 32 < 2 ^ 32)
    (hc : count = field.length) (hw : ∀ w ∈ field, w < 2 ^ 32) :
    ∀ k, k ≤ count → (∀ X, k * 32 ≤ X → X < count * 32 → bitAt field X = true) →
      (msZeroGo field count k (k - 1) = count * 32
          ∧ ∀ X, X < count * 32 → bitAt field X = true)
      ∨ (msZeroGo field count k (k - 1) < k * 32
          ∧ bitAt field (msZeroGo field count k (k - 1)) = false
          ∧ ∀ Y, msZeroGo field count k (k - 1) < Y → Y < count * 32 → bitAt field Y = true) := by
  intro k
  induction k with
  | zero =>
    intro _ habove
    exact Or.inl ⟨by rw [msZeroGo]; exact Nat.mod_eq_of_lt hcb,
      fun X h2 => habove X (by omega) h2⟩
  | succ k ih =>
    intro hk habove
    have hklt : k < field.length := by omega
    have hwlt : field.getD k 0 < 2 ^ 32 := hw _ (getD_mem_of_lt hklt)
    have hsucc : k + 1 - 1 = k := by omega
    rw [hsucc, msZeroGo]
    by_cases hz : compl32 (field.getD k 0) = 0
    · rw [if_neg (fun hcon => hcon hz)]
      have hfull : ∀ a, a < 32 → (field.getD k 0).testBit a = true := (word_full_iff hwlt).mp hz
      have habove2 : ∀ X, k * 32 ≤ X → X < count * 32 → bitAt field X = true := by
        intro X h1 h2
        rcases Nat.lt_or_ge X ((k + 1) * 32) with hX | hX
        · have hdiv : X / 32 = k := by omega
          rw [bitAt, hdiv]
          exact hfull _ (by omega)
        · exact habove X hX h2
      rcases ih (by omega) habove2 with h | ⟨h1, h2, h3⟩
      · exact Or.inl h
      · exact Or.inr ⟨by omega, h2, h3⟩
    · rw [if_pos hz]
      have hclt : compl32 (field.getD k 0) < 2 ^ 32 := compl32_lt hwlt
      obtain ⟨hl32, hbit, habove3⟩ := highestSetBitIdx32_spec hz hclt
      have hrm : (highestSetBitIdx32 (compl32 (field.getD k 0)) + k * (4 * 8)) % 2 ^ 32
          = highestSetBitIdx32 (compl32 (field.getD k 0)) + k * (4 * 8) :=
        Nat.mod_eq_of_lt (by omega)
      rw [hrm]
      refine Or.inr ⟨by omega, ?_, ?_⟩
      · have hdiv : (highestSetBitIdx32 (compl32 (field.getD k 0)) + k * (4 * 8)) / 32 = k := by
          omega
        have hmod : (highestSetBitIdx32 (compl32 (field.getD k 0)) + k * (4 * 8)) % 32
            = highestSetBitIdx32 (compl32 (field.getD k 0)) := by omega
        rw [bitAt, hdiv, hmod]
        rw [compl32_testBit _ _ hl32] at hbit
        simpa using hbit
      · intro Y hy1 hy2
        rcases Nat.lt_or_ge Y ((k + 1) * 32) with hY | hY
        · have hdiv : Y / 32 = k := by omega
          rw [bitAt, hdiv]
          have hcb := habove3 (Y % 32) (by omega)
          rw [compl32_testBit _ _ (by omega)] at hcb
          simpa using hcb
        · exact habove Y hY hy2

theorem replicate_getD (c i w : Nat) (h : i < c) :
    (List.replicate c w).getD i 0 = w := by
  rw [List.getD_eq_getElem?_getD, List.getElem?_replicate, if_pos h]
  rfl

theorem lsZeroGo_ones (c : Nat) : ∀ k i, i + k ≤ c →
    lsZeroGo (List.replicate c (2 ^ 32 - 1)) c k i = (c * 32) % 2 ^ 32 := by
  intro k
  induction k with
  | zero => intro i _; rw [lsZeroGo]
  | succ k ih =>
    intro i hi
    rw [lsZeroGo]
    have hz : compl32 ((List.replicate c (2 ^ 32 - 1)).getD i 0) = 0 := by
      rw [replicate_getD c i _ (by omega)]
      exact Nat.xor_self _
    rw [if_neg (fun hcon => hcon hz)]
    exact ih (i + 1) (by omega)

theorem msZeroGo_ones (c : Nat) : ∀ k, k ≤ c →
    msZeroGo (List.replicate c (2 ^ 32 - 1)) c k (k - 1) = (c * 32) % 2 ^ 32 := by
  intro k
  induction k with
  | zero => intro _; rw [msZeroGo]
  | succ k ih =>
    intro hk
    have hsucc : k + 1 - 1 = k := by omega
    rw [hsucc, msZeroGo]
    have hz : compl32 ((List.replicate c (2 ^ 32 - 1)).getD k 0) = 0 := by
      rw [replicate_getD c k _ (by omega)]
      exact Nat.xor_self _
    rw [if_neg (fun hcon => hcon hz)]
    exact ih (by omega)

/-- Claim C7 counterexample: at `count = 2 ^ 27` the `NvU32` sentinel
`count * 32` wraps to `0`.  On an all-ones field of `2 ^ 27` words every
bit below `count * 32` is set, so the claim requires both scans to return
the sentinel `count * 32 = 2 ^ 32`; the program returns `0` instead. -/
theorem claim_C7_cex :
    nvBitFieldLSZero (List.replicate (2 ^ 27) (2 ^ 32 - 1)) (2 ^ 27) = 0
    ∧ nvBitFieldMSZero (List.replicate (2 ^ 27) (2 ^ 32 - 1)) (2 ^ 27) = 0
    ∧ (∀ X, X < 2 ^ 27 * 32 → bitAt (List.replicate (2 ^ 27) (2 ^ 32 - 1)) X = true)
    ∧ (0 : Nat) ≠ 2 ^ 27 * 32 := by
  refine ⟨?_, ?_, ?_, by norm_num⟩
  · rw [nvBitFieldLSZero, lsZeroGo_ones (2 ^ 27) (2 ^ 27) 0 (by omega)]
    norm_num
  · rw [nvBitFieldMSZero, msZeroGo_ones (2 ^ 27) (2 ^ 27) (le_refl _)]
    norm_num
  · intro X hX
    rw [bitAt, replicate_getD _ _ _ (by omega), Nat.testBit_two_pow_sub_one]
    simp only [decide_eq_true_eq]
    omega

/-- Claim C7 (amended): for `count < 2 ^ 27` (so that the 32-bit sentinel
`count * 32` and the scan returns do not wrap), `nvBitFieldLSZero` returns
the least bit index below `count*32` whose bit is clear and
`nvBitFieldMSZero` the greatest such index; both return the sentinel
`count*32` when every bit is set, in particular `64` for an all-ones
two-word field. -/
theorem claim_C7_amended (field : List Nat) (count : Nat) (hcount : count < 2 ^ 27)
    (hc : count = field.length) (hw : ∀ w ∈ field, w < 2 ^ 32) :
    ((nvBitFieldLSZero field count = count * 32 ∧ ∀ X, X < count * 32 → bitAt field X = true)
      ∨ (nvBitFieldLSZero field count < count * 32
          ∧ bitAt field (nvBitFieldLSZero field count) = false
          ∧ ∀ Y, Y < nvBitFieldLSZero field count → bitAt field Y = true))
    ∧ ((nvBitFieldMSZero field count = count * 32 ∧ ∀ X, X < count * 32 → bitAt field X = true)
      ∨ (nvBitFieldMSZero field count < count * 32
          ∧ bitAt field (nvBitFieldMSZero field count) = false
          ∧ ∀ Y, nvBitFieldMSZero field count < Y → Y < count * 32 → bitAt field Y = true))
    ∧ nvBitFieldLSZero [2 ^ 32 - 1, 2 ^ 32 - 1] 2 = 64
    ∧ nvBitFieldMSZero [2 ^ 32 - 1, 2 ^ 32 - 1] 2 = 64 := by
  have hcb : count * 32 < 2 ^ 32 := by omega
  refine ⟨?_, ?_, by decide, by decide⟩
  · unfold nvBitFieldLSZero
    rcases lsZeroGo_spec field count hcb hc hw count 0 (by omega)
      with ⟨h1, h2⟩ | ⟨h1, h2, h3, h4⟩
    · exact Or.inl ⟨h1, fun X hX => h2 X (by omega) hX⟩
    · exact Or.inr ⟨h2, h3, fun Y hY => h4 Y (by omega) hY⟩
  · unfold nvBitFieldMSZero
    rcases msZeroGo_spec field count hcb hc hw count (le_refl _) (fun X h1 h2 => by omega)
      with h | h
    · exact Or.inl h
    · exact Or.inr h

/-- Claim C7 amended witness: the theorem applied to the one-word field
`[5]` (bits `101`), whose lowest clear bit is `1` and highest clear bit
is `31`. -/
theorem claim_C7_amended_witness :
    ((1 : Nat) < 2 ^ 27 ∧ (1 : Nat) = ([5] : List Nat).length
      ∧ ∀ w ∈ ([5] : List Nat), w < 2 ^ 32)
    ∧ (((nvBitFieldLSZero [5] 1 = 1 * 32 ∧ ∀ X, X < 1 * 32 → bitAt [5] X = true)
      ∨ (nvBitFieldLSZero [5] 1 < 1 * 32
          ∧ bitAt [5] (nvBitFieldLSZero [5] 1) = false
          ∧ ∀ Y, Y < nvBitFieldLSZero [5] 1 → bitAt [5] Y = true))
    ∧ ((nvBitFieldMSZero [5] 1 = 1 * 32 ∧ ∀ X, X < 1 * 32 → bitAt [5] X = true)
      ∨ (nvBitFieldMSZero [5] 1 < 1 * 32
          ∧ bitAt [5] (nvBitFieldMSZero [5] 1) = false
          ∧ ∀ Y, nvBitFieldMSZero [5] 1 < Y → Y < 1 * 32 → bitAt [5] Y = true))
    ∧ nvBitFieldLSZero [2 ^ 32 - 1, 2 ^ 32 - 1] 2 = 64
    ∧ nvBitFieldMSZero [2 ^ 32 - 1, 2 ^ 32 - 1] 2 = 64) :=
  ⟨⟨by norm_num, rfl, by decide⟩, claim_C7_amended [5] 1 (by norm_num) rfl (by decide)⟩

end BaseUtils
namespace BaseUtils

theorem u32ToStrGo_acc (base : Nat) (hb : 2 ≤ base) :
    ∀ fuel v acc, acc ≠ [] → (Nat.digits base v).length ≤ fuel →
      u32ToStrGo base fuel v acc = acc ++ (Nat.digits base v).map digitChar := by
  intro fuel
  induction fuel with
  | zero =>
    intro v acc hacc hlen
    have hv : v = 0 := by
      rcases Nat.eq_zero_or_pos v with h | h
      · exact h
      · exfalso
        rw [Nat.digits_len base v (by omega) (by omega)] at hlen
        omega
    subst hv
    simp [u32ToStrGo, Nat.digits_zero]
  | succ fuel ih =>
    intro v acc hacc hlen
    rcases Nat.eq_zero_or_pos v with hv | hv
    · subst hv
      rw [u32ToStrGo, if_neg (by simp [hacc])]
      simp [Nat.digits_zero]
    · rw [u32ToStrGo, if_pos (Or.inl (by omega))]
      have hdig : Nat.digits base v = v % base :: Nat.digits base (v / base) :=
        Nat.digits_def' (by omega) hv
      have hlen2 : (Nat.digits base (v / base)).length ≤ fuel := by
        rw [hdig] at hlen
        simpa using hlen
      rw [ih (v / base) (acc ++ [digitChar (v % base)]) (by simp) hlen2, hdig]
      simp

/-- Digit list that `nvU32ToStr` extracts into `tmp`: little-endian digits
of `value`, except that `value = 0` produces the single digit `0` (the
loop body runs at least once). -/
def specDigits (base v : Nat) : List Nat := if v = 0 then [0] else Nat.digits base v

theorem u32ToStrGo_top (base v : Nat) (hb : 2 ≤ base) (hv : v < 2 ^ 32) :
    u32ToStrGo base 33 v [] = (specDigits base v).map digitChar := by
  rcases Nat.eq_zero_or_pos v with h0 | h0
  · subst h0
    rw [specDigits, if_pos rfl]
    rw [show (33 : Nat) = 32 + 1 from rfl, u32ToStrGo, if_pos (Or.inr rfl)]
    rw [show (32 : Nat) = 31 + 1 from rfl, u32ToStrGo, if_neg (by simp)]
    simp
  · rw [specDigits, if_neg (by omega)]
    rw [show (33 : Nat) = 32 + 1 from rfl, u32ToStrGo, if_pos (Or.inl (by omega))]
    have hdig : Nat.digits base v = v % base :: Nat.digits base (v / base) :=
      Nat.digits_def' (by omega) h0
    have hlen : (Nat.digits base (v / base)).length ≤ 32 := by
      rcases Nat.eq_zero_or_pos (v / base) with h | h
      · rw [h]
        simp
      · rw [Nat.digits_len base _ (by omega) (by omega)]
        have hlog : Nat.log base (v / base) < 32 := by
          apply Nat.log_lt_of_lt_pow (by omega)
          calc v / base < 2 ^ 32 := lt_of_le_of_lt (Nat.div_le_self v base) hv
          _ ≤ base ^ 32 := Nat.pow_le_pow_left hb 32
        omega
    rw [u32ToStrGo_acc base hb 32 (v / base) _ (by simp) hlen, hdig]
    simp

/-- Claim C8: `nvU32ToStr` returns null exactly when the base is outside
`2..36`; for a base in range it writes the base-`base` digits of `value`
(most significant first, at most 32 digits, then a terminating zero byte)
into the caller's buffer and returns it.  `Nat.ofDigits` recovers `value`
from the digit list and every digit is below the base. -/
theorem claim_C8 (value base : Nat) (hv : value < 2 ^ 32) :
    (nvU32ToStr value base = none ↔ (base < 2 ∨ 36 < base))
    ∧ (2 ≤ base → base ≤ 36 →
        nvU32ToStr value base = some (((specDigits base value).map digitChar).reverse ++ [0])
        ∧ Nat.ofDigits base (specDigits base value) = value
        ∧ (specDigits base value).length ≤ 32
        ∧ ∀ d ∈ specDigits base value, d < base) := by
  constructor
  · unfold nvU32ToStr
    by_cases h1 : base > 36
    · rw [if_pos h1]
      simp
      omega
    · rw [if_neg h1]
      by_cases h2 : base ≤ 1
      · rw [if_pos h2]
        simp
        omega
      · rw [if_neg h2]
        simp
        omega
  · intro hb1 hb2
    have hsome : nvU32ToStr value base = some ((u32ToStrGo base 33 value []).reverse ++ [0]) := by
      unfold nvU32ToStr
      rw [if_neg (by omega), if_neg (by omega)]
    refine ⟨?_, ?_, ?_, ?_⟩
    · rw [hsome, u32ToStrGo_top base value hb1 hv]
    · rw [specDigits]
      by_cases h0 : value = 0
      · subst h0
        simp
      · rw [if_neg h0]
        exact Nat.ofDigits_digits base value
    · rw [specDigits]
      by_cases h0 : value = 0
      · subst h0
        simp
      · rw [if_neg h0, Nat.digits_len base value (by omega) h0]
        have hlog : Nat.log base value < 32 := by
          apply Nat.log_lt_of_lt_pow h0
          calc value < 2 ^ 32 := hv
          _ ≤ base ^ 32 := Nat.pow_le_pow_left hb1 32
        omega
    · rw [specDigits]
      by_cases h0 : value = 0
      · subst h0
        simp
        omega
      · rw [if_neg h0]
        intro d hd
        exact Nat.digits_lt_base (by omega) hd

/-- Claim C8 witness: the theorem applied at `value = 1234`, `base = 10`,
with the in-range implication discharged. -/
theorem claim_C8_witness :
    (1234 : Nat) < 2 ^ 32 ∧ (2 : Nat) ≤ 10 ∧ (10 : Nat) ≤ 36
    ∧ (nvU32ToStr 1234 10 = some (((specDigits 10 1234).map digitChar).reverse ++ [0])
        ∧ Nat.ofDigits 10 (specDigits 10 1234) = 1234
        ∧ (specDigits 10 1234).length ≤ 32
        ∧ ∀ d ∈ specDigits 10 1234, d < 10) :=
  ⟨by norm_num, by norm_num, by norm_num,
    (claim_C8 1234 10 (by norm_num)).2 (by norm_num) (by norm_num)⟩

end BaseUtils
namespace BaseUtils

/-- Elements `lo, ..., hi - 1` of `arr`: the run `[lo, hi)`. -/
def slice {α : Type} (arr : List α) (lo hi : Nat) : List α :=
  (arr.drop lo).take (hi - lo)

theorem slice_nil {α : Type} (arr : List α) {lo hi : Nat} (h : hi ≤ lo) :
    slice arr lo hi = [] := by
  rw [slice, Nat.sub_eq_zero_of_le h, List.take_zero]

theorem slice_length {α : Type} (arr : List α) {lo hi : Nat} (h1 : lo ≤ hi)
    (h2 : hi ≤ arr.length) : (slice arr lo hi).length = hi - lo := by
  rw [slice, List.length_take, List.length_drop]
  omega

theorem slice_zero_length {α : Type} (arr : List α) : slice arr 0 arr.length = arr := by
  rw [slice, List.drop_zero, Nat.sub_zero, List.take_length]

theorem slice_cons {α : Type} [Inhabited α] (arr : List α) {lo hi : Nat} (h1 : lo < hi)
    (h2 : lo < arr.length) :
    slice arr lo hi = arr.getD lo default :: slice arr (lo + 1) hi := by
  rw [slice, slice, List.drop_eq_getElem_cons h2,
    show hi - lo = (hi - (lo + 1)) + 1 by omega, List.take_succ_cons,
    List.getD_eq_getElem?_getD, List.getElem?_eq_getElem h2]
  rfl

theorem slice_append {α : Type} (arr : List α) {lo mid hi : Nat} (h1 : lo ≤ mid)
    (h2 : mid ≤ hi) :
    slice arr lo mid ++ slice arr mid hi = slice arr lo hi := by
  have h3 : (arr.drop lo).drop (mid - lo) = arr.drop mid := by
    rw [List.drop_drop]
    congr 1
    omega
  rw [slice, slice, slice, ← h3, ← List.take_add]
  congr 1
  omega

theorem slice_eq_drop_take {α : Type} (arr : List α) (lo hi : Nat) :
    slice arr lo hi = (arr.take hi).drop lo := by
  rw [slice, List.drop_take]

theorem writeBack_length {α : Type} (arr src : List α) {pos : Nat}
    (h : pos + src.length ≤ arr.length) :
    (writeBack arr pos src).length = arr.length := by
  rw [writeBack]
  simp only [List.length_append, List.length_take, List.length_drop]
  omega

theorem arr_decomp {α : Type} (arr : List α) {pos len : Nat} (_h : pos + len ≤ arr.length) :
    arr = arr.take pos ++ slice arr pos (pos + len) ++ arr.drop (pos + len) := by
  rw [List.append_assoc, slice, show pos + len - pos = len by omega]
  conv_lhs => rw [← List.take_append_drop pos arr]
  congr 1
  conv_lhs => rw [← List.take_append_drop len (arr.drop pos)]
  rw [List.drop_drop]

theorem writeBack_perm {α : Type} (arr src : List α) {pos : Nat}
    (h : pos + src.length ≤ arr.length)
    (hperm : src.Perm (slice arr pos (pos + src.length))) :
    (writeBack arr pos src).Perm arr := by
  conv_rhs => rw [arr_decomp arr h]
  rw [writeBack]
  exact (hperm.append_left _).append_right _

theorem length_take_eq {α : Type} (arr : List α) {pos : Nat} (h : pos ≤ arr.length) :
    (arr.take pos).length = pos := by
  rw [List.length_take]
  omega

theorem slice_writeBack_inside {α : Type} (arr src : List α) {pos : Nat}
    (h : pos + src.length ≤ arr.length) :
    slice (writeBack arr pos src) pos (pos + src.length) = src := by
  rw [slice, writeBack, show pos + src.length - pos = src.length by omega,
    List.append_assoc, List.drop_left' (length_take_eq arr (by omega))]
  exact List.take_left' rfl

theorem slice_writeBack_before {α : Type} (arr src : List α) {pos a b : Nat}
    (hb : b ≤ pos) (hlen : pos ≤ arr.length) :
    slice (writeBack arr pos src) a b = slice arr a b := by
  rw [slice_eq_drop_take, slice_eq_drop_take, writeBack,
    List.take_append_of_le_length
      (by rw [List.length_append, length_take_eq arr hlen]; omega),
    List.take_append_of_le_length (by rw [length_take_eq arr hlen]; omega),
    List.take_take, Nat.min_eq_left hb]

theorem slice_writeBack_after {α : Type} (arr src : List α) {pos a b : Nat}
    (ha : pos + src.length ≤ a) (hlen : pos + src.length ≤ arr.length) :
    slice (writeBack arr pos src) a b = slice arr a b := by
  have hlen2 : (arr.take pos ++ src).length = pos + src.length := by
    rw [List.length_append, length_take_eq arr (by omega)]
  have hdrop : (writeBack arr pos src).drop a = arr.drop a := by
    rw [writeBack,
      show a = (arr.take pos ++ src).length + (a - (pos + src.length)) by rw [hlen2]; omega,
      List.drop_append, List.drop_drop]
    congr 1
    rw [hlen2]
  rw [slice, slice, hdrop]

theorem getD_writeBack_outside {α : Type} [Inhabited α] (arr src : List α) {pos j : Nat}
    (hlen : pos + src.length ≤ arr.length)
    (hj : j < pos ∨ pos + src.length ≤ j) :
    (writeBack arr pos src).getD j default = arr.getD j default := by
  have htl : (arr.take pos).length = pos := length_take_eq arr (by omega)
  rcases hj with hj | hj
  · rw [List.getD_eq_getElem?_getD, List.getD_eq_getElem?_getD, writeBack,
      List.getElem?_append_left
        (by rw [List.length_append, htl]; omega),
      List.getElem?_append_left (by rw [htl]; omega),
      List.getElem?_take_of_lt hj]
  · have hlen2 : (arr.take pos ++ src).length = pos + src.length := by
      rw [List.length_append, htl]
    rw [List.getD_eq_getElem?_getD, List.getD_eq_getElem?_getD, writeBack,
      List.getElem?_append_right (by rw [hlen2]; omega), hlen2,
      List.getElem?_drop, show pos + src.length + (j - (pos + src.length)) = j by omega]

end BaseUtils
namespace BaseUtils

/-- Reference two-run merge at the list level: take from the left run
exactly when `less left right` is true, from the right run otherwise;
drain the surviving run at the end.  `mergeDrain` is proved equal to it. -/
def mergeL {α : Type} (less : α → α → Bool) : List α → List α → List α
  | [], r => r
  | a :: l, [] => a :: l
  | a :: l, b :: r =>
    if less a b then a :: mergeL less l (b :: r)
    else b :: mergeL less (a :: l) r
termination_by l r => l.length + r.length

theorem mergeL_nil_left {α : Type} (less : α → α → Bool) (r : List α) :
    mergeL less [] r = r := by
  cases r <;> rw [mergeL]

theorem mergeL_nil_right {α : Type} (less : α → α → Bool) (l : List α) :
    mergeL less l [] = l := by
  cases l <;> rw [mergeL]

theorem mergeL_cons_cons {α : Type} (less : α → α → Bool) (a b : α) (l r : List α) :
    mergeL less (a :: l) (b :: r) =
      if less a b then a :: mergeL less l (b :: r) else b :: mergeL less (a :: l) r := by
  rw [mergeL]

theorem mergeL_perm {α : Type} (less : α → α → Bool) (l r : List α) :
    (mergeL less l r).Perm (l ++ r) := by
  suffices h : ∀ (k : Nat) (l r : List α), l.length + r.length ≤ k → (mergeL less l r).Perm (l ++ r) from
    h (l.length + r.length) l r (le_refl _)
  intro k
  induction k with
  | zero =>
    intro l r hlen
    cases l with
    | nil => simp [mergeL_nil_left]
    | cons a l => simp at hlen
  | succ k ih =>
    intro l r hlen
    cases l with
    | nil => simp [mergeL_nil_left]
    | cons a l =>
      cases r with
      | nil => simp [mergeL_nil_right]
      | cons b r =>
        rw [mergeL_cons_cons]
        by_cases hless : less a b = true
        · rw [if_pos hless]
          exact (ih l (b :: r) (by simp at hlen ⊢; omega)).cons a
        · rw [if_neg hless]
          have h2 := (ih (a :: l) r (by simp at hlen ⊢; omega)).cons b
          exact h2.trans List.perm_middle.symm

theorem mergeL_length {α : Type} (less : α → α → Bool) (l r : List α) :
    (mergeL less l r).length = l.length + r.length := by
  have h := (mergeL_perm less l r).length_eq
  simpa using h

theorem mergeL_head_le {α : Type} (less : α → α → Bool) (l r : List α) (c : α)
    (hl : ∀ x ∈ l.head?, less x c = false) (hr : ∀ x ∈ r.head?, less x c = false) :
    ∀ x ∈ (mergeL less l r).head?, less x c = false := by
  cases l with
  | nil => simpa [mergeL_nil_left] using hr
  | cons a l =>
    cases r with
    | nil => simpa [mergeL_nil_right] using hl
    | cons b r =>
      rw [mergeL_cons_cons]
      by_cases hless : less a b = true
      · rw [if_pos hless]
        simp only [List.head?_cons, Option.mem_def, Option.some.injEq]
        rintro x rfl
        exact hl a (by simp)
      · rw [if_neg hless]
        simp only [List.head?_cons, Option.mem_def, Option.some.injEq]
        rintro x rfl
        exact hr b (by simp)

theorem mergeL_chain {α : Type} (less : α → α → Bool)
    (hasym : ∀ a b, less a b = true → less b a = false) (l r : List α)
    (hl : List.Chain' (fun a b => less b a = false) l)
    (hr : List.Chain' (fun a b => less b a = false) r) :
    List.Chain' (fun a b => less b a = false) (mergeL less l r) := by
  suffices h : ∀ (k : Nat) (l r : List α), l.length + r.length ≤ k →
      List.Chain' (fun a b => less b a = false) l →
      List.Chain' (fun a b => less b a = false) r →
      List.Chain' (fun a b => less b a = false) (mergeL less l r) from
    h (l.length + r.length) l r (le_refl _) hl hr
  clear hl hr l r
  intro k
  induction k with
  | zero =>
    intro l r hlen hl hr
    cases l with
    | nil => simpa [mergeL_nil_left] using hr
    | cons a l => simp at hlen
  | succ k ih =>
    intro l r hlen hl hr
    cases l with
    | nil => simpa [mergeL_nil_left] using hr
    | cons a l =>
      cases r with
      | nil => simpa [mergeL_nil_right] using hl
      | cons b r =>
        rw [mergeL_cons_cons]
        rw [List.chain'_cons'] at hl hr
        by_cases hless : less a b = true
        · rw [if_pos hless, List.chain'_cons']
          constructor
          · apply mergeL_head_le
            · exact hl.1
            · simp only [List.head?_cons, Option.mem_def, Option.some.injEq]
              rintro x rfl
              exact hasym a b hless
          · exact ih l (b :: r) (by simp at hlen ⊢; omega) hl.2
              (List.chain'_cons'.mpr hr)
        · rw [if_neg hless, List.chain'_cons']
          constructor
          · apply mergeL_head_le
            · simp only [List.head?_cons, Option.mem_def, Option.some.injEq]
              rintro x rfl
              exact Bool.not_eq_true _ ▸ hless
            · exact hr.1
          · exact ih (a :: l) r (by simp at hlen ⊢; omega)
              (List.chain'_cons'.mpr hl) hr.2

end BaseUtils
namespace BaseUtils

theorem u32Mod_eq : u32Mod = 2 ^ 32 := rfl

theorem drainLoop_eq {α : Type} [Inhabited α] (arr : List α) :
    ∀ (fuel lo loMax : Nat) (dest : List α), loMax - lo ≤ fuel → loMax ≤ arr.length →
      drainLoop arr fuel lo loMax dest = dest ++ slice arr lo loMax := by
  intro fuel
  induction fuel with
  | zero =>
    intro lo loMax dest h1 h2
    rw [drainLoop, slice_nil arr (by omega), List.append_nil]
  | succ fuel ih =>
    intro lo loMax dest h1 h2
    by_cases hlt : lo < loMax
    · rw [drainLoop, if_pos hlt, ih _ _ _ (by omega) h2,
        slice_cons arr hlt (by omega)]
      simp
    · rw [drainLoop, if_neg hlt, slice_nil arr (by omega), List.append_nil]

theorem mergeDrain_left_break {α : Type} [Inhabited α] (less : α → α → Bool)
    (arr : List α) {loMax hiMax fuel lo hi : Nat} {dest : List α}
    (hless : less (arr.getD lo default) (arr.getD hi default) = true)
    (hbreak : loMax ≤ lo + 1) :
    mergeDrain less arr loMax hiMax (fuel + 1) lo hi dest
      = drainLoop arr hiMax hi hiMax
          (drainLoop arr loMax (lo + 1) loMax (dest ++ [arr.getD lo default])) := by
  rw [mergeDrain, mergeLoop, if_pos hless, if_pos (show lo + 1 ≥ loMax from hbreak)]

theorem mergeDrain_left_cont {α : Type} [Inhabited α] (less : α → α → Bool)
    (arr : List α) {loMax hiMax fuel lo hi : Nat} {dest : List α}
    (hless : less (arr.getD lo default) (arr.getD hi default) = true)
    (hcont : lo + 1 < loMax) :
    mergeDrain less arr loMax hiMax (fuel + 1) lo hi dest
      = mergeDrain less arr loMax hiMax fuel (lo + 1) hi (dest ++ [arr.getD lo default]) := by
  rw [mergeDrain, mergeLoop, if_pos hless, if_neg (show ¬ lo + 1 ≥ loMax by omega), mergeDrain]

theorem mergeDrain_right_break {α : Type} [Inhabited α] (less : α → α → Bool)
    (arr : List α) {loMax hiMax fuel lo hi : Nat} {dest : List α}
    (hless : less (arr.getD lo default) (arr.getD hi default) = false)
    (hbreak : hiMax ≤ hi + 1) :
    mergeDrain less arr loMax hiMax (fuel + 1) lo hi dest
      = drainLoop arr hiMax (hi + 1) hiMax
          (drainLoop arr loMax lo loMax (dest ++ [arr.getD hi default])) := by
  rw [mergeDrain, mergeLoop, if_neg (by rw [Bool.not_eq_true]; exact hless),
    if_pos (show hi + 1 ≥ hiMax from hbreak)]

theorem mergeDrain_right_cont {α : Type} [Inhabited α] (less : α → α → Bool)
    (arr : List α) {loMax hiMax fuel lo hi : Nat} {dest : List α}
    (hless : less (arr.getD lo default) (arr.getD hi default) = false)
    (hcont : hi + 1 < hiMax) :
    mergeDrain less arr loMax hiMax (fuel + 1) lo hi dest
      = mergeDrain less arr loMax hiMax fuel lo (hi + 1) (dest ++ [arr.getD hi default]) := by
  rw [mergeDrain, mergeLoop, if_neg (by rw [Bool.not_eq_true]; exact hless),
    if_neg (show ¬ hi + 1 ≥ hiMax by omega), mergeDrain]

theorem mergeDrain_eq {α : Type} [Inhabited α] (less : α → α → Bool) (arr : List α)
    {loMax hiMax : Nat} (h1 : loMax ≤ arr.length) (h2 : hiMax ≤ arr.length) :
    ∀ (fuel lo hi : Nat) (dest : List α), lo < loMax → hi < hiMax →
      (loMax - lo) + (hiMax - hi) ≤ fuel →
      mergeDrain less arr loMax hiMax fuel lo hi dest
        = dest ++ mergeL less (slice arr lo loMax) (slice arr hi hiMax) := by
  intro fuel
  induction fuel with
  | zero =>
    intro lo hi dest hlo hhi hf
    omega
  | succ fuel ih =>
    intro lo hi dest hlo hhi hf
    by_cases hless : less (arr.getD lo default) (arr.getD hi default) = true
    · by_cases hbreak : loMax ≤ lo + 1
      · rw [mergeDrain_left_break less arr hless hbreak,
          drainLoop_eq arr loMax (lo + 1) loMax _ (by omega) h1,
          slice_nil arr (show loMax ≤ lo + 1 from hbreak), List.append_nil,
          drainLoop_eq arr hiMax hi hiMax _ (by omega) h2,
          slice_cons arr hlo (by omega),
          slice_nil arr (show loMax ≤ lo + 1 from hbreak),
          slice_cons arr hhi (by omega), mergeL_cons_cons, if_pos hless, mergeL_nil_left]
        simp
      · rw [mergeDrain_left_cont less arr hless (by omega),
          ih (lo + 1) hi _ (by omega) hhi (by omega),
          slice_cons arr hlo (by omega),
          slice_cons arr hhi (by omega), mergeL_cons_cons, if_pos hless]
        simp
    · have hless2 : less (arr.getD lo default) (arr.getD hi default) = false := by
        simpa using hless
      by_cases hbreak : hiMax ≤ hi + 1
      · rw [mergeDrain_right_break less arr hless2 hbreak,
          drainLoop_eq arr loMax lo loMax _ (by omega) h1,
          drainLoop_eq arr hiMax (hi + 1) hiMax _ (by omega) h2,
          slice_nil arr (show hiMax ≤ hi + 1 from hbreak), List.append_nil,
          slice_cons arr hhi (by omega),
          slice_nil arr (show hiMax ≤ hi + 1 from hbreak),
          slice_cons arr hlo (by omega), mergeL_cons_cons, if_neg hless, mergeL_nil_right]
        simp
      · rw [mergeDrain_right_cont less arr hless2 (by omega),
          ih lo (hi + 1) _ hlo (by omega) (by omega),
          slice_cons arr hhi (by omega),
          slice_cons arr hlo (by omega), mergeL_cons_cons, if_neg hless]
        simp

theorem mergeDest_eq {α : Type} [Inhabited α] (less : α → α → Bool) {n m i : Nat}
    (arr : List α) (hm : 1 ≤ m) (hin : i + m < n) (hlen : n = arr.length)
    (hnw : i + 2 * m < 2 ^ 32) :
    mergeDest less n m i arr
      = mergeL less (slice arr i (i + m)) (slice arr (i + m) (min n (i + 2 * m))) := by
  have hmod : (i + 2 * m) % u32Mod = i + 2 * m := by
    rw [u32Mod_eq]
    exact Nat.mod_eq_of_lt hnw
  rw [mergeDest, hmod]
  rw [mergeDrain_eq less arr (by omega) (by omega) _ i (i + m) [] (by omega)
    (lt_min (by omega) (by omega)) (by omega)]
  simp

theorem mergeDest_length {α : Type} [Inhabited α] (less : α → α → Bool) {n m i : Nat}
    (arr : List α) (hm : 1 ≤ m) (hin : i + m < n) (hlen : n = arr.length)
    (hnw : i + 2 * m < 2 ^ 32) :
    (mergeDest less n m i arr).length = min n (i + 2 * m) - i := by
  rw [mergeDest_eq less arr hm hin hlen hnw, mergeL_length,
    slice_length arr (by omega) (by omega),
    slice_length arr (by omega) (by omega)]
  omega

theorem mergeBlock_length {α : Type} [Inhabited α] (less : α → α → Bool) {n m i : Nat}
    (arr : List α) (hm : 1 ≤ m) (hin : i + m < n) (hlen : n = arr.length)
    (hnw : i + 2 * m < 2 ^ 32) :
    (mergeBlock less n m i arr).length = arr.length := by
  rw [mergeBlock]
  apply writeBack_length
  rw [mergeDest_length less arr hm hin hlen hnw]
  omega

theorem mergeBlock_perm {α : Type} [Inhabited α] (less : α → α → Bool) {n m i : Nat}
    (arr : List α) (hm : 1 ≤ m) (hin : i + m < n) (hlen : n = arr.length)
    (hnw : i + 2 * m < 2 ^ 32) :
    (mergeBlock less n m i arr).Perm arr := by
  have hdl := mergeDest_length less arr hm hin hlen hnw
  rw [mergeBlock]
  apply writeBack_perm arr _ (by omega)
  rw [show i + (mergeDest less n m i arr).length = min n (i + 2 * m) by omega,
    mergeDest_eq less arr hm hin hlen hnw]
  have hp := mergeL_perm less (slice arr i (i + m)) (slice arr (i + m) (min n (i + 2 * m)))
  rwa [slice_append arr (by omega) (by omega)] at hp

theorem slice_mergeBlock_inside {α : Type} [Inhabited α] (less : α → α → Bool) {n m i : Nat}
    (arr : List α) (hm : 1 ≤ m) (hin : i + m < n) (hlen : n = arr.length)
    (hnw : i + 2 * m < 2 ^ 32) :
    slice (mergeBlock less n m i arr) i (min n (i + 2 * m)) = mergeDest less n m i arr := by
  have hdl := mergeDest_length less arr hm hin hlen hnw
  rw [mergeBlock, show min n (i + 2 * m) = i + (mergeDest less n m i arr).length by omega]
  exact slice_writeBack_inside arr _ (by omega)

end BaseUtils
namespace BaseUtils

/-- Adjacent-pair ascending order as `nvMergeSort` produces it:
`less` never holds from a later element to an earlier adjacent one. -/
def lChain {α : Type} (less : α → α → Bool) (l : List α) : Prop :=
  List.Chain' (fun a b => less b a = false) l

theorem lChain_short {α : Type} (less : α → α → Bool) (l : List α) (h : l.length ≤ 1) :
    lChain less l := by
  match l with
  | [] => exact List.chain'_nil
  | [a] => exact List.chain'_singleton a
  | a :: b :: t => simp at h

theorem lChain_sub {α : Type} (less : α → α → Bool) (arr : List α) {a b a2 b2 : Nat}
    (h : lChain less (slice arr a b)) (ha : a ≤ a2) (hb : b2 ≤ b) :
    lChain less (slice arr a2 b2) := by
  by_cases hab : a2 < b2
  · have hinfix : (slice arr a2 b2) <:+: (slice arr a b) := by
      refine ⟨slice arr a a2, slice arr b2 b, ?_⟩
      rw [slice_append arr ha (by omega), slice_append arr (by omega) hb]
    exact h.infix hinfix
  · rw [slice_nil arr (by omega)]
    exact List.chain'_nil

/-- All width-`w` blocks of the array are internally sorted; block `j`
spans `[j*w, min n ((j+1)*w))`. -/
def blockChain {α : Type} (less : α → α → Bool) (n w : Nat) (arr : List α) : Prop :=
  ∀ j : Nat, lChain less (slice arr (j * w) (min n ((j + 1) * w)))

/-- Invariant of one pass of `nvMergeSort` at block size `m`, cursor `i`:
the `2*m` blocks strictly before `i` are already merged and sorted, the
`m` blocks from `i` on are sorted from the previous pass. -/
def PassInv {α : Type} (less : α → α → Bool) (n m i : Nat) (arr : List α) : Prop :=
  (∀ j : Nat, j * (2 * m) < i →
    lChain less (slice arr (j * (2 * m)) (min n ((j + 1) * (2 * m)))))
  ∧ ∀ k : Nat, i ≤ k * m → lChain less (slice arr (k * m) (min n ((k + 1) * m)))

theorem mult_succ_le_of_lt {w i j : Nat} (hdvd : w ∣ i) (h : j * w < i) :
    (j + 1) * w ≤ i := by
  obtain ⟨q, rfl⟩ := hdvd
  have hw : 0 < w := by
    rcases Nat.eq_zero_or_pos w with h0 | h0
    · subst h0
      simp at h
    · exact h0
  have hjq : j < q := by
    by_contra hc
    push_neg at hc
    have h2 : w * q ≤ w * j := Nat.mul_le_mul_left w hc
    have h3 : j * w = w * j := Nat.mul_comm j w
    omega
  have h4 : (j + 1) * w ≤ q * w := Nat.mul_le_mul_right w hjq
  have h5 : q * w = w * q := Nat.mul_comm q w
  omega

theorem mult_eq_of_between {w i j : Nat} (hdvd : w ∣ i) (h1 : i ≤ j * w)
    (h2 : j * w < i + w) : j * w = i := by
  obtain ⟨q, rfl⟩ := hdvd
  have hw : 0 < w := by
    rcases Nat.eq_zero_or_pos w with h0 | h0
    · subst h0
      simp at h2
    · exact h0
  have hqj : q ≤ j := by
    by_contra hc
    push_neg at hc
    have h3 : (j + 1) * w ≤ q * w := Nat.mul_le_mul_right w hc
    have h4 : (j + 1) * w = j * w + w := Nat.succ_mul j w
    have h5 : q * w = w * q := Nat.mul_comm q w
    omega
  have hjq : j < q + 1 := by
    by_contra hc
    push_neg at hc
    have h3 : (q + 1) * w ≤ j * w := Nat.mul_le_mul_right w hc
    have h4 : (q + 1) * w = q * w + w := Nat.succ_mul q w
    have h5 : q * w = w * q := Nat.mul_comm q w
    omega
  have hqj2 : j = q := by omega
  subst hqj2
  exact Nat.mul_comm j w

theorem passLoop_wrap_none {α : Type} [Inhabited α] (less : α → α → Bool) {n m : Nat}
    (hm : 1 ≤ m) (hdvd : (2 * m) ∣ 2 ^ 32) (hnm : 2 ^ 32 < n + m) :
    ∀ (fuel i : Nat) (arr : List α), (2 * m) ∣ i → i < 2 ^ 32 →
      passLoop less n m fuel i arr = none := by
  have h2m : 2 * m ≤ 2 ^ 32 := Nat.le_of_dvd (by norm_num) hdvd
  intro fuel
  induction fuel with
  | zero =>
    intro i arr _ _
    rfl
  | succ fuel ih =>
    intro i arr hdvdi hilt
    have hile : i ≤ 2 ^ 32 - 2 * m := by
      obtain ⟨q, rfl⟩ := hdvdi
      obtain ⟨b, hb⟩ := hdvd
      have hq : q < b := by
        by_contra hq
        push_neg at hq
        have h2 : 2 * m * b ≤ 2 * m * q := Nat.mul_le_mul_left _ hq
        omega
      have h1 : 2 * m * (q + 1) ≤ 2 * m * b := Nat.mul_le_mul_left _ (by omega)
      rw [Nat.mul_add, Nat.mul_one] at h1
      omega
    rw [passLoop, if_pos (show i < n - m by omega)]
    apply ih
    · exact (Nat.dvd_mod_iff hdvd).mpr (Nat.dvd_add hdvdi (dvd_refl _))
    · rw [u32Mod_eq]
      exact Nat.mod_lt _ (by norm_num)

theorem passLoop_mzero_none {α : Type} [Inhabited α] (less : α → α → Bool) {n : Nat}
    (hn32 : n < 2 ^ 32) :
    ∀ (fuel i : Nat) (arr : List α), i < n → passLoop less n 0 fuel i arr = none := by
  intro fuel
  induction fuel with
  | zero =>
    intro i arr _
    rfl
  | succ fuel ih =>
    intro i arr hi
    rw [passLoop, if_pos (show i < n - 0 by omega)]
    rw [show (i + 2 * 0) % u32Mod = i by
      rw [u32Mod_eq, Nat.mul_zero, Nat.add_zero]
      exact Nat.mod_eq_of_lt (by omega)]
    exact ih i _ hi

theorem sortLoop_mzero_none {α : Type} [Inhabited α] (less : α → α → Bool) {n : Nat}
    (hn : 0 < n) (hn32 : n < 2 ^ 32) :
    ∀ (fuel : Nat) (arr : List α), sortLoop less n fuel 0 arr = none := by
  intro fuel arr
  cases fuel with
  | zero => rfl
  | succ fuel =>
    rw [sortLoop, if_pos (Nat.zero_le n),
      passLoop_mzero_none less hn32 fuel 0 arr hn]

end BaseUtils
namespace BaseUtils

theorem passLoop_sorted {α : Type} [Inhabited α] (less : α → α → Bool)
    (hasym : ∀ a b, less a b = true → less b a = false) {n m : Nat}
    (hm : 1 ≤ m) (hdvd : (2 * m) ∣ 2 ^ 32) (hn32 : n < 2 ^ 32) :
    ∀ (fuel i : Nat) (arr out : List α), (2 * m) ∣ i → arr.length = n →
      PassInv less n m i arr →
      passLoop less n m fuel i arr = some out →
      out.length = n ∧ blockChain less n (2 * m) out := by
  intro fuel
  induction fuel with
  | zero =>
    intro i arr out _ _ _ h
    rw [passLoop] at h
    simp at h
  | succ fuel ih =>
    intro i arr out hdvdi hlen hinv hrun
    by_cases hguard : i < n - m
    · by_cases hwrap : i + 2 * m < 2 ^ 32
      · have hin : i + m < n := by omega
        have hstep : (i + 2 * m) % u32Mod = i + 2 * m := by
          rw [u32Mod_eq]
          exact Nat.mod_eq_of_lt hwrap
        rw [passLoop, if_pos hguard, hstep] at hrun
        have hlen2 : n = arr.length := hlen.symm
        have hbl : (mergeBlock less n m i arr).length = arr.length :=
          mergeBlock_length less arr hm hin hlen2 hwrap
        have hdl : (mergeDest less n m i arr).length = min n (i + 2 * m) - i :=
          mergeDest_length less arr hm hin hlen2 hwrap
        have hmin : min n (i + 2 * m) ≤ i + 2 * m := Nat.min_le_right _ _
        have hminn : min n (i + 2 * m) ≤ n := Nat.min_le_left _ _
        have hmerged : lChain less (slice (mergeBlock less n m i arr) i (min n (i + 2 * m))) := by
          rw [slice_mergeBlock_inside less arr hm hin hlen2 hwrap,
            mergeDest_eq less arr hm hin hlen2 hwrap]
          obtain ⟨q, hqi⟩ := hdvdi
          have e1 : 2 * q * m = i := by rw [hqi]; ring
          have e2 : (2 * q + 1) * m = i + m := by rw [hqi]; ring
          have e3 : (2 * q + 1 + 1) * m = i + 2 * m := by rw [hqi]; ring
          apply mergeL_chain less hasym
          · have hL := hinv.2 (2 * q) (by omega)
            rw [e1, e2, Nat.min_eq_right (by omega)] at hL
            exact hL
          · have hR := hinv.2 (2 * q + 1) (by omega)
            rw [e2, e3] at hR
            exact hR
        have hinv2 : PassInv less n m (i + 2 * m) (mergeBlock less n m i arr) := by
          constructor
          · intro j hj
            by_cases hjlt : j * (2 * m) < i
            · have hj1 : (j + 1) * (2 * m) ≤ i := mult_succ_le_of_lt hdvdi hjlt
              have heq : slice (mergeBlock less n m i arr) (j * (2 * m))
                  (min n ((j + 1) * (2 * m)))
                  = slice arr (j * (2 * m)) (min n ((j + 1) * (2 * m))) := by
                rw [mergeBlock]
                exact slice_writeBack_before arr _ (by omega) (by omega)
              rw [heq]
              exact hinv.1 j hjlt
            · push_neg at hjlt
              have hsucc : (j + 1) * (2 * m) = j * (2 * m) + 2 * m := Nat.succ_mul j (2 * m)
              have hji : j * (2 * m) = i := mult_eq_of_between hdvdi hjlt (by omega)
              rw [hsucc, hji]
              exact hmerged
          · intro k hk
            have heq : slice (mergeBlock less n m i arr) (k * m) (min n ((k + 1) * m))
                = slice arr (k * m) (min n ((k + 1) * m)) := by
              rw [mergeBlock]
              apply slice_writeBack_after arr _ ?_ ?_
              · omega
              · omega
            rw [heq]
            exact hinv.2 k (by omega)
        exact ih (i + 2 * m) (mergeBlock less n m i arr) out
          (Nat.dvd_add hdvdi (dvd_refl _)) (by omega) hinv2 hrun
      · push_neg at hwrap
        rw [passLoop_wrap_none less hm hdvd (by omega) (fuel + 1) i arr hdvdi (by omega)] at hrun
        simp at hrun
    · rw [passLoop, if_neg hguard] at hrun
      have hout : out = arr := by simpa using hrun.symm
      subst hout
      refine ⟨hlen, ?_⟩
      intro j
      by_cases hjlt : j * (2 * m) < i
      · exact hinv.1 j hjlt
      · push_neg at hjlt
        have e1 : 2 * j * m = j * (2 * m) := by ring
        have e2 : (2 * j + 1) * m = j * (2 * m) + m := by ring
        have hK := hinv.2 (2 * j) (by omega)
        rw [e1, e2] at hK
        apply lChain_sub less _ hK (le_refl _)
        have hexit : n ≤ i + m := by omega
        have hsucc : (j + 1) * (2 * m) = j * (2 * m) + 2 * m := Nat.succ_mul j (2 * m)
        omega

theorem passLoop_perm {α : Type} [Inhabited α] (less : α → α → Bool) {n m : Nat}
    (hm : 1 ≤ m) (hdvd : (2 * m) ∣ 2 ^ 32) (hn32 : n < 2 ^ 32) :
    ∀ (fuel i : Nat) (arr out : List α), (2 * m) ∣ i → arr.length = n →
      passLoop less n m fuel i arr = some out →
      out.Perm arr := by
  intro fuel
  induction fuel with
  | zero =>
    intro i arr out _ _ h
    rw [passLoop] at h
    simp at h
  | succ fuel ih =>
    intro i arr out hdvdi hlen hrun
    by_cases hguard : i < n - m
    · by_cases hwrap : i + 2 * m < 2 ^ 32
      · have hin : i + m < n := by omega
        have hstep : (i + 2 * m) % u32Mod = i + 2 * m := by
          rw [u32Mod_eq]
          exact Nat.mod_eq_of_lt hwrap
        rw [passLoop, if_pos hguard, hstep] at hrun
        have hlen2 : n = arr.length := hlen.symm
        have hbl : (mergeBlock less n m i arr).length = arr.length :=
          mergeBlock_length less arr hm hin hlen2 hwrap
        have hperm : (mergeBlock less n m i arr).Perm arr :=
          mergeBlock_perm less arr hm hin hlen2 hwrap
        exact (ih (i + 2 * m) (mergeBlock less n m i arr) out
          (Nat.dvd_add hdvdi (dvd_refl _)) (by omega) hrun).trans hperm
      · push_neg at hwrap
        rw [passLoop_wrap_none less hm hdvd (by omega) (fuel + 1) i arr hdvdi (by omega)] at hrun
        simp at hrun
    · rw [passLoop, if_neg hguard] at hrun
      have hout : out = arr := by simpa using hrun.symm
      subst hout
      exact List.Perm.refl _

end BaseUtils
namespace BaseUtils

theorem sortLoop_sorted {α : Type} [Inhabited α] (less : α → α → Bool)
    (hasym : ∀ a b, less a b = true → less b a = false) {n : Nat} (hn32 : n < 2 ^ 32) :
    ∀ (fuel m : Nat) (arr out : List α), arr.length = n →
      ((0 < n ∧ m = 0) ∨ ∃ j, j ≤ 31 ∧ m = 2 ^ j) →
      blockChain less n m arr →
      sortLoop less n fuel m arr = some out →
      out.length = n ∧ lChain less out := by
  intro fuel
  induction fuel with
  | zero =>
    intro m arr out _ _ _ h
    rw [sortLoop] at h
    simp at h
  | succ fuel ih =>
    intro m arr out hlen hmshape hblocks hrun
    rcases hmshape with ⟨hn, hm0⟩ | ⟨j, hj, hmj⟩
    · subst hm0
      rw [sortLoop_mzero_none less hn hn32] at hrun
      simp at hrun
    · subst hmj
      by_cases hguard : 2 ^ j ≤ n
      · rw [sortLoop, if_pos hguard] at hrun
        cases hp : passLoop less n (2 ^ j) fuel 0 arr with
        | none =>
          rw [hp] at hrun
          simp at hrun
        | some arr2 =>
          rw [hp] at hrun
          have hm1 : 1 ≤ 2 ^ j := Nat.two_pow_pos j
          have hdvd : (2 * 2 ^ j) ∣ 2 ^ 32 := by
            rw [show 2 * 2 ^ j = 2 ^ (j + 1) by rw [pow_succ]; ring]
            exact pow_dvd_pow 2 (by omega)
          have hinv0 : PassInv less n (2 ^ j) 0 arr := by
            constructor
            · intro j2 hj2
              omega
            · intro k _
              exact hblocks k
          have hps := passLoop_sorted less hasym hm1 hdvd hn32 fuel 0 arr arr2
            (dvd_zero _) hlen hinv0 hp
          by_cases hj30 : j ≤ 30
          · have hstep : (2 * 2 ^ j) % u32Mod = 2 ^ (j + 1) := by
              rw [u32Mod_eq, show 2 * 2 ^ j = 2 ^ (j + 1) by rw [pow_succ]; ring]
              exact Nat.mod_eq_of_lt (Nat.pow_lt_pow_right (by omega) (by omega))
            rw [hstep] at hrun
            apply ih (2 ^ (j + 1)) arr2 out hps.1 (Or.inr ⟨j + 1, by omega, rfl⟩) ?_ hrun
            rw [show (2 : Nat) ^ (j + 1) = 2 * 2 ^ j by rw [pow_succ]; ring]
            exact hps.2
          · have hj31 : j = 31 := by omega
            subst hj31
            have hn0 : 0 < n := by
              have := Nat.two_pow_pos 31
              omega
            have hstep : (2 * 2 ^ 31) % u32Mod = 0 := by
              rw [u32Mod_eq]
              norm_num
            rw [hstep] at hrun
            apply ih 0 arr2 out hps.1 (Or.inl ⟨hn0, rfl⟩) ?_ hrun
            intro j2
            rw [Nat.mul_zero, Nat.mul_zero, Nat.min_zero, slice_nil arr2 (le_refl 0)]
            exact List.chain'_nil
      · rw [sortLoop, if_neg hguard] at hrun
        have hout : arr = out := by simpa using hrun
        subst hout
        refine ⟨hlen, ?_⟩
        have hb0 := hblocks 0
        rw [Nat.zero_mul, Nat.min_eq_left (by omega)] at hb0
        rw [← hlen] at hb0
        rwa [slice_zero_length] at hb0

theorem sortLoop_perm {α : Type} [Inhabited α] (less : α → α → Bool) {n : Nat}
    (hn32 : n < 2 ^ 32) :
    ∀ (fuel m : Nat) (arr out : List α), arr.length = n →
      ((0 < n ∧ m = 0) ∨ ∃ j, j ≤ 31 ∧ m = 2 ^ j) →
      sortLoop less n fuel m arr = some out →
      out.Perm arr := by
  intro fuel
  induction fuel with
  | zero =>
    intro m arr out _ _ h
    rw [sortLoop] at h
    simp at h
  | succ fuel ih =>
    intro m arr out hlen hmshape hrun
    rcases hmshape with ⟨hn, hm0⟩ | ⟨j, hj, hmj⟩
    · subst hm0
      rw [sortLoop_mzero_none less hn hn32] at hrun
      simp at hrun
    · subst hmj
      by_cases hguard : 2 ^ j ≤ n
      · rw [sortLoop, if_pos hguard] at hrun
        cases hp : passLoop less n (2 ^ j) fuel 0 arr with
        | none =>
          rw [hp] at hrun
          simp at hrun
        | some arr2 =>
          rw [hp] at hrun
          have hm1 : 1 ≤ 2 ^ j := Nat.two_pow_pos j
          have hdvd : (2 * 2 ^ j) ∣ 2 ^ 32 := by
            rw [show 2 * 2 ^ j = 2 ^ (j + 1) by rw [pow_succ]; ring]
            exact pow_dvd_pow 2 (by omega)
          have hpp := passLoop_perm less hm1 hdvd hn32 fuel 0 arr arr2
            (dvd_zero _) hlen hp
          have hlen2 : arr2.length = n := by
            rw [hpp.length_eq, hlen]
          by_cases hj30 : j ≤ 30
          · have hstep : (2 * 2 ^ j) % u32Mod = 2 ^ (j + 1) := by
              rw [u32Mod_eq, show 2 * 2 ^ j = 2 ^ (j + 1) by rw [pow_succ]; ring]
              exact Nat.mod_eq_of_lt (Nat.pow_lt_pow_right (by omega) (by omega))
            rw [hstep] at hrun
            exact (ih (2 ^ (j + 1)) arr2 out hlen2 (Or.inr ⟨j + 1, by omega, rfl⟩) hrun).trans hpp
          · have hj31 : j = 31 := by omega
            subst hj31
            have hn0 : 0 < n := by
              have := Nat.two_pow_pos 31
              omega
            have hstep : (2 * 2 ^ 31) % u32Mod = 0 := by
              rw [u32Mod_eq]
              norm_num
            rw [hstep] at hrun
            exact (ih 0 arr2 out hlen2 (Or.inl ⟨hn0, rfl⟩) hrun).trans hpp
      · rw [sortLoop, if_neg hguard] at hrun
        have hout : arr = out := by simpa using hrun
        subst hout
        exact List.Perm.refl _

theorem passLoop_some {α : Type} [Inhabited α] (less : α → α → Bool) {n m : Nat}
    (hm : 1 ≤ m) (hn : n < 2 ^ 31) :
    ∀ (fuel i : Nat) (arr : List α), n ≤ fuel + i →
      ∃ out, passLoop less n m (fuel + 1) i arr = some out := by
  intro fuel
  induction fuel with
  | zero =>
    intro i arr hfi
    rw [passLoop, if_neg (show ¬ i < n - m by omega)]
    exact ⟨arr, rfl⟩
  | succ fuel ih =>
    intro i arr hfi
    by_cases hguard : i < n - m
    · have hmn : m < n := by omega
      have hwrap : i + 2 * m < 2 ^ 32 := by omega
      rw [passLoop, if_pos hguard, show (i + 2 * m) % u32Mod = i + 2 * m by
        rw [u32Mod_eq]
        exact Nat.mod_eq_of_lt hwrap]
      exact ih (i + 2 * m) _ (by omega)
    · rw [passLoop, if_neg hguard]
      exact ⟨arr, rfl⟩

theorem sortLoop_some {α : Type} [Inhabited α] (less : α → α → Bool) {n : Nat}
    (hn : n < 2 ^ 31) :
    ∀ (fuel m : Nat) (arr : List α), 1 ≤ m → n + 2 + (n + 1 - m) ≤ fuel →
      ∃ out, sortLoop less n fuel m arr = some out := by
  intro fuel
  induction fuel with
  | zero =>
    intro m arr hm hf
    omega
  | succ fuel ih =>
    intro m arr hm hf
    by_cases hguard : m ≤ n
    · obtain ⟨f2, rfl⟩ : ∃ f2, fuel = f2 + 1 := ⟨fuel - 1, by omega⟩
      obtain ⟨arr2, harr2⟩ := passLoop_some less hm hn f2 0 arr (by omega)
      rw [sortLoop, if_pos hguard, harr2]
      show ∃ out, sortLoop less n (f2 + 1) ((2 * m) % u32Mod) arr2 = some out
      rw [show (2 * m) % u32Mod = 2 * m by
        rw [u32Mod_eq]
        exact Nat.mod_eq_of_lt (by omega)]
      exact ih (2 * m) arr2 (by omega) (by omega)
    · rw [sortLoop, if_neg hguard]
      exact ⟨arr, rfl⟩

theorem sortLoop_pow31_none {α : Type} [Inhabited α] (less : α → α → Bool) :
    ∀ (fuel : Nat) (arr : List α) (j : Nat), j ≤ 31 →
      sortLoop less (2 ^ 31) fuel (2 ^ j) arr = none := by
  intro fuel
  induction fuel with
  | zero =>
    intro arr j hj
    rfl
  | succ fuel ih =>
    intro arr j hj
    rw [sortLoop, if_pos (Nat.pow_le_pow_right (by omega) hj)]
    cases hp : passLoop less (2 ^ 31) (2 ^ j) fuel 0 arr with
    | none => rfl
    | some arr2 =>
      show sortLoop less (2 ^ 31) fuel ((2 * 2 ^ j) % u32Mod) arr2 = none
      by_cases hj30 : j ≤ 30
      · rw [show (2 * 2 ^ j) % u32Mod = 2 ^ (j + 1) by
          rw [u32Mod_eq, show 2 * 2 ^ j = 2 ^ (j + 1) by rw [pow_succ]; ring]
          exact Nat.mod_eq_of_lt (Nat.pow_lt_pow_right (by omega) (by omega))]
        exact ih arr2 (j + 1) (by omega)
      · have hj31 : j = 31 := by omega
        subst hj31
        rw [show (2 * 2 ^ 31) % u32Mod = 0 by rw [u32Mod_eq]; norm_num]
        exact sortLoop_mzero_none less (Nat.two_pow_pos 31) (by norm_num) fuel arr2

end BaseUtils
namespace BaseUtils

/-- Comparator on naturals used by the concrete witnesses. -/
def natLess (a b : Nat) : Bool := decide (a < b)

/-- Key comparator on pairs (compares first components only), used to
exhibit tie behaviour. -/
def pairLess (a b : Nat × Nat) : Bool := decide (a.1 < b.1)

theorem natLess_asym : ∀ a b : Nat, natLess a b = true → natLess b a = false := by
  intro a b h
  simp only [natLess, decide_eq_true_eq] at h
  simp only [natLess, decide_eq_false_iff_not]
  omega

theorem natLess_trans : ∀ a b c : Nat,
    natLess a b = true → natLess b c = true → natLess a c = true := by
  intro a b c h1 h2
  simp only [natLess, decide_eq_true_eq] at h1 h2 ⊢
  omega

theorem natLess_conn : ∀ a b : Nat, natLess a b = false → natLess b a = false → a = b := by
  intro a b h1 h2
  simp only [natLess, decide_eq_false_iff_not] at h1 h2
  omega

theorem lChain_pair {α : Type} (less : α → α → Bool) (a b : α) (h : less b a = false) :
    lChain less [a, b] := by
  rw [lChain, List.chain'_cons]
  exact ⟨h, List.chain'_singleton b⟩

theorem lChain_triple {α : Type} (less : α → α → Bool) (a b c : α)
    (h1 : less b a = false) (h2 : less c b = false) :
    lChain less [a, b, c] := by
  rw [lChain, List.chain'_cons, List.chain'_cons]
  exact ⟨h1, h2, List.chain'_singleton c⟩

theorem blockChain_one {α : Type} (less : α → α → Bool) (n : Nat) (arr : List α) :
    blockChain less n 1 arr := by
  intro j
  rw [Nat.mul_one, Nat.mul_one]
  apply lChain_short
  rw [slice, List.length_take, List.length_drop]
  omega

/-- Claim C1: with a strict-total-order comparator, after `nvMergeSort`
returns, every adjacent pair `(a[i], a[i+1])` with `i + 1 < n` satisfies
`less a[i+1] a[i] = false`: the array is in ascending order. -/
theorem claim_C1 {α : Type} [Inhabited α] (less : α → α → Bool) (arr out : List α)
    (n fuel : Nat)
    (hasym : ∀ a b, less a b = true → less b a = false)
    (htrans : ∀ a b c, less a b = true → less b c = true → less a c = true)
    (hconn : ∀ a b, less a b = false → less b a = false → a = b)
    (hn : n = arr.length) (hn32 : n < 2 ^ 32)
    (hrun : nvMergeSort less arr n fuel = some out) :
    out.length = n ∧ ∀ i, i + 1 < n →
      less (out.getD (i + 1) default) (out.getD i default) = false := by
  have hs := sortLoop_sorted less hasym hn32 fuel 1 arr out hn.symm
    (Or.inr ⟨0, by omega, rfl⟩) (blockChain_one less n arr) hrun
  refine ⟨hs.1, ?_⟩
  intro i hi
  have hc := hs.2
  rw [lChain, List.chain'_iff_get] at hc
  have hstep := hc i (by omega)
  have hg : ∀ (k : Nat) (hk : k < out.length), out.getD k default = out.get ⟨k, hk⟩ := by
    intro k hk
    rw [List.getD_eq_getElem?_getD, List.getElem?_eq_getElem hk]
    simp
  rw [hg (i + 1) (by omega), hg i (by omega)]
  exact hstep

/-- Claim C1 witness: sorting `[3, 1, 2]` with `<` on naturals. -/
theorem claim_C1_witness :
    ((3 : Nat) = ([3, 1, 2] : List Nat).length) ∧ (3 : Nat) < 2 ^ 32
    ∧ nvMergeSort natLess [3, 1, 2] 3 40 = some [1, 2, 3]
    ∧ (([1, 2, 3] : List Nat).length = 3 ∧ ∀ i, i + 1 < 3 →
        natLess (([1, 2, 3] : List Nat).getD (i + 1) default)
          (([1, 2, 3] : List Nat).getD i default) = false) :=
  ⟨rfl, by norm_num, by decide,
    claim_C1 natLess [3, 1, 2] [1, 2, 3] 3 40 natLess_asym natLess_trans natLess_conn
      rfl (by norm_num) (by decide)⟩

/-- Claim C2: for every comparator, the array after `nvMergeSort` returns
is a permutation of the array before the call. -/
theorem claim_C2 {α : Type} [Inhabited α] (less : α → α → Bool) (arr out : List α)
    (n fuel : Nat) (hn : n = arr.length) (hn32 : n < 2 ^ 32)
    (hrun : nvMergeSort less arr n fuel = some out) :
    out.Perm arr :=
  sortLoop_perm less hn32 fuel 1 arr out hn.symm (Or.inr ⟨0, by omega, rfl⟩) hrun

/-- Claim C2 witness: sorting `[2, 1, 1]` permutes it to `[1, 1, 2]`. -/
theorem claim_C2_witness :
    ((3 : Nat) = ([2, 1, 1] : List Nat).length) ∧ (3 : Nat) < 2 ^ 32
    ∧ nvMergeSort natLess [2, 1, 1] 3 40 = some [1, 1, 2]
    ∧ ([1, 1, 2] : List Nat).Perm [2, 1, 1] :=
  ⟨rfl, by norm_num, by decide,
    claim_C2 natLess [2, 1, 1] [1, 1, 2] 3 40 rfl (by norm_num) (by decide)⟩

/-- Claim C3 (amended): `nvMergeSort` terminates for every `n < 2 ^ 31`.
(At `n = 2 ^ 31` the 32-bit doubling of `m` wraps to `0` and the pass loop
never advances, see the counterexample.) -/
theorem claim_C3_amended {α : Type} [Inhabited α] (less : α → α → Bool) (arr : List α)
    (n : Nat) (hn : n < 2 ^ 31) : nvMergeSortTerminates less arr n := by
  obtain ⟨out, hout⟩ := sortLoop_some less hn (n + 2 + n) 1 arr (by omega) (by omega)
  exact ⟨n + 2 + n, out, hout⟩

/-- Claim C3 amended witness: termination at `n = 3`. -/
theorem claim_C3_amended_witness :
    (3 : Nat) < 2 ^ 31 ∧ nvMergeSortTerminates natLess [3, 1, 2] 3 :=
  ⟨by norm_num, claim_C3_amended natLess [3, 1, 2] 3 (by norm_num)⟩

/-- Claim C3 counterexample: at `n = 2 ^ 31` (a value of the 32-bit
parameter `n`, with an array of `2 ^ 31` elements) `nvMergeSort` never
returns: after the pass with `m = 2 ^ 31`, the 32-bit `m *= 2` wraps to
`0` and the inner loop repeats `i = 0` forever. -/
theorem claim_C3_cex :
    ¬ nvMergeSortTerminates (fun _ _ => false) (List.replicate (2 ^ 31) ()) (2 ^ 31) := by
  rintro ⟨fuel, out, hout⟩
  rw [nvMergeSort, show (1 : Nat) = 2 ^ 0 by norm_num,
    sortLoop_pow31_none (fun _ _ => false) fuel _ 0 (by omega)] at hout
  exact Option.noConfusion hout

theorem mergeLoop_dest_extends {α : Type} [Inhabited α] (less : α → α → Bool)
    (arr : List α) (loMax hiMax : Nat) :
    ∀ (fuel lo hi : Nat) (dest : List α),
      ∃ t, (mergeLoop less arr loMax hiMax fuel lo hi dest).1 = dest ++ t := by
  intro fuel
  induction fuel with
  | zero =>
    intro lo hi dest
    exact ⟨[], by rw [mergeLoop]; simp⟩
  | succ fuel ih =>
    intro lo hi dest
    rw [mergeLoop]
    by_cases hless : less (arr.getD lo default) (arr.getD hi default) = true
    · rw [if_pos hless]
      by_cases hbreak : lo + 1 ≥ loMax
      · rw [if_pos hbreak]
        exact ⟨[arr.getD lo default], rfl⟩
      · rw [if_neg hbreak]
        obtain ⟨t, ht⟩ := ih (lo + 1) hi (dest ++ [arr.getD lo default])
        exact ⟨[arr.getD lo default] ++ t, by rw [ht]; simp⟩
    · rw [if_neg hless]
      by_cases hbreak : hi + 1 ≥ hiMax
      · rw [if_pos hbreak]
        exact ⟨[arr.getD hi default], rfl⟩
      · rw [if_neg hbreak]
        obtain ⟨t, ht⟩ := ih lo (hi + 1) (dest ++ [arr.getD hi default])
        exact ⟨[arr.getD hi default] ++ t, by rw [ht]; simp⟩

theorem getD_append_cons {α : Type} [Inhabited α] (dest : List α) (x : α) (t : List α) :
    (dest ++ x :: t).getD dest.length default = x := by
  rw [List.getD_eq_getElem?_getD, List.getElem?_append_right (le_refl _)]
  simp

/-- Claim C4: while both runs are non-exhausted, the next element the merge
loop copies to scratch is the left head exactly when `less left right` is
true and the right head otherwise; on a tie the right run's element is
copied first, so equal-keyed elements `(0,1), (0,2)` come back reversed
(the sort is not stable). -/
theorem claim_C4 {α : Type} [Inhabited α] (less : α → α → Bool) (arr : List α)
    (loMax hiMax fuel lo hi : Nat) (dest : List α)
    (hlo : lo < loMax) (hhi : hi < hiMax) :
    ((mergeLoop less arr loMax hiMax (fuel + 1) lo hi dest).1.getD dest.length default
      = if less (arr.getD lo default) (arr.getD hi default)
        then arr.getD lo default else arr.getD hi default)
    ∧ (less (arr.getD lo default) (arr.getD hi default) = false →
      (mergeLoop less arr loMax hiMax (fuel + 1) lo hi dest).1.getD dest.length default
        = arr.getD hi default)
    ∧ nvMergeSort pairLess [(0, 1), (0, 2)] 2 40 = some [(0, 2), (0, 1)]
    ∧ ([(0, 2), (0, 1)] : List (Nat × Nat)) ≠ [(0, 1), (0, 2)] := by
  have hmain : (mergeLoop less arr loMax hiMax (fuel + 1) lo hi dest).1.getD
      dest.length default
      = if less (arr.getD lo default) (arr.getD hi default)
        then arr.getD lo default else arr.getD hi default := by
    rw [mergeLoop]
    by_cases hless : less (arr.getD lo default) (arr.getD hi default) = true
    · rw [if_pos hless, if_pos hless]
      by_cases hbreak : lo + 1 ≥ loMax
      · rw [if_pos hbreak]
        exact getD_append_cons dest _ []
      · rw [if_neg hbreak]
        obtain ⟨t, ht⟩ := mergeLoop_dest_extends less arr loMax hiMax fuel (lo + 1) hi
          (dest ++ [arr.getD lo default])
        rw [show dest ++ [arr.getD lo default] ++ t
          = dest ++ arr.getD lo default :: t by simp] at ht
        rw [ht]
        exact getD_append_cons dest _ t
    · rw [if_neg hless, if_neg hless]
      by_cases hbreak : hi + 1 ≥ hiMax
      · rw [if_pos hbreak]
        exact getD_append_cons dest _ []
      · rw [if_neg hbreak]
        obtain ⟨t, ht⟩ := mergeLoop_dest_extends less arr loMax hiMax fuel lo (hi + 1)
          (dest ++ [arr.getD hi default])
        rw [show dest ++ [arr.getD hi default] ++ t
          = dest ++ arr.getD hi default :: t by simp] at ht
        rw [ht]
        exact getD_append_cons dest _ t
  refine ⟨hmain, fun hf => ?_, by decide, by decide⟩
  rw [hmain, if_neg (by rw [hf]; simp)]

/-- Claim C4 witness: one merge step on `[5, 9]` with runs `[0,1)`, `[1,2)`. -/
theorem claim_C4_witness :
    (0 : Nat) < 1 ∧ (1 : Nat) < 2
    ∧ (((mergeLoop natLess [5, 9] 1 2 (0 + 1) 0 1 []).1.getD ([] : List Nat).length default
        = if natLess (([5, 9] : List Nat).getD 0 default) (([5, 9] : List Nat).getD 1 default)
          then ([5, 9] : List Nat).getD 0 default else ([5, 9] : List Nat).getD 1 default)
      ∧ (natLess (([5, 9] : List Nat).getD 0 default) (([5, 9] : List Nat).getD 1 default) = false →
        (mergeLoop natLess [5, 9] 1 2 (0 + 1) 0 1 []).1.getD ([] : List Nat).length default
          = ([5, 9] : List Nat).getD 1 default)
      ∧ nvMergeSort pairLess [(0, 1), (0, 2)] 2 40 = some [(0, 2), (0, 1)]
      ∧ ([(0, 2), (0, 1)] : List (Nat × Nat)) ≠ [(0, 1), (0, 2)]) :=
  ⟨by norm_num, by norm_num,
    claim_C4 natLess [5, 9] 1 2 0 0 1 [] (by norm_num) (by norm_num)⟩

/-- Claim C5 counterexample: with the key comparator, `[(0,1),(0,2)]` is
already sorted (adjacent criterion holds) and is itself the output of an
`nvMergeSort` call, yet sorting it again swaps the two equal-keyed,
byte-distinct elements: sorting is not idempotent. -/
theorem claim_C5_cex :
    nvMergeSort pairLess [(0, 2), (0, 1)] 2 40 = some [(0, 1), (0, 2)]
    ∧ nvMergeSort pairLess [(0, 1), (0, 2)] 2 40 = some [(0, 2), (0, 1)]
    ∧ lChain pairLess [(0, 1), (0, 2)]
    ∧ ([(0, 2), (0, 1)] : List (Nat × Nat)) ≠ [(0, 1), (0, 2)] := by
  exact ⟨by decide, by decide, lChain_pair pairLess (0, 1) (0, 2) (by decide), by decide⟩

/-- Claim C5 (amended): sorting an already-sorted array leaves it
byte-for-byte identical provided the comparator is a strict total order
whose ties only occur between equal elements. -/
theorem claim_C5_amended {α : Type} [Inhabited α] (less : α → α → Bool)
    (arr out : List α) (n fuel : Nat)
    (hasym : ∀ a b, less a b = true → less b a = false)
    (htrans : ∀ a b c, less a b = true → less b c = true → less a c = true)
    (hconn : ∀ a b, less a b = false → less b a = false → a = b)
    (hn : n = arr.length) (hn32 : n < 2 ^ 32)
    (hsorted : lChain less arr)
    (hrun : nvMergeSort less arr n fuel = some out) :
    out = arr := by
  have hperm : out.Perm arr :=
    sortLoop_perm less hn32 fuel 1 arr out hn.symm (Or.inr ⟨0, by omega, rfl⟩) hrun
  have hsout : lChain less out :=
    (sortLoop_sorted less hasym hn32 fuel 1 arr out hn.symm
      (Or.inr ⟨0, by omega, rfl⟩) (blockChain_one less n arr) hrun).2
  haveI : IsTrans α (fun a b => less b a = false) := by
    refine ⟨?_⟩
    intro a b c hab hbc
    cases hca : less c a with
    | false => rfl
    | true =>
      exfalso
      cases hab2 : less a b with
      | false =>
        have heq : a = b := hconn a b hab2 hab
        subst heq
        rw [hca] at hbc
        exact Bool.noConfusion hbc
      | true =>
        have h3 : less c b = true := htrans c a b hca hab2
        rw [h3] at hbc
        exact Bool.noConfusion hbc
  haveI : IsAntisymm α (fun a b => less b a = false) := ⟨fun a b hab hba => hconn a b hba hab⟩
  have hp1 : List.Pairwise (fun a b => less b a = false) out := by
    rw [← List.chain'_iff_pairwise]
    exact hsout
  have hp2 : List.Pairwise (fun a b => less b a = false) arr := by
    rw [← List.chain'_iff_pairwise]
    exact hsorted
  exact List.eq_of_perm_of_sorted hperm hp1 hp2

/-- Claim C5 amended witness: re-sorting the sorted array `[1, 2, 3]`. -/
theorem claim_C5_amended_witness :
    ((3 : Nat) = ([1, 2, 3] : List Nat).length) ∧ (3 : Nat) < 2 ^ 32
    ∧ lChain natLess [1, 2, 3]
    ∧ nvMergeSort natLess [1, 2, 3] 3 40 = some [1, 2, 3]
    ∧ ([1, 2, 3] : List Nat) = [1, 2, 3] :=
  ⟨rfl, by norm_num, lChain_triple natLess 1 2 3 (by decide) (by decide), by decide,
    claim_C5_amended natLess [1, 2, 3] [1, 2, 3] 3 40 natLess_asym natLess_trans
      natLess_conn rfl (by norm_num) (lChain_triple natLess 1 2 3 (by decide) (by decide))
      (by decide)⟩

/-- Claim C6: in every block merge actually performed by a pass (`m ≥ 1`,
`i + m < n`, no 32-bit wrap), the scratch buffer receives exactly
`min n (i + 2m) - i` elements, so every scratch write lands below element
index `n` (byte offset below `n * size` for every element size), and the
copy-back touches only the merged source range `[i, min n (i + 2m))`. -/
theorem claim_C6 {α : Type} [Inhabited α] (less : α → α → Bool) (arr : List α)
    (n m i : Nat) (hm : 1 ≤ m) (hin : i + m < n) (hlen : n = arr.length)
    (hnw : i + 2 * m < 2 ^ 32) :
    (mergeDest less n m i arr).length = min n (i + 2 * m) - i
    ∧ i + (mergeDest less n m i arr).length ≤ n
    ∧ (∀ size : Nat, (mergeDest less n m i arr).length * size ≤ n * size)
    ∧ (mergeBlock less n m i arr).length = arr.length
    ∧ ∀ j, j < i ∨ min n (i + 2 * m) ≤ j →
        (mergeBlock less n m i arr).getD j default = arr.getD j default := by
  have hdl := mergeDest_length less arr hm hin hlen hnw
  refine ⟨hdl, by omega, ?_, mergeBlock_length less arr hm hin hlen hnw, ?_⟩
  · intro size
    apply Nat.mul_le_mul_right
    omega
  · intro j hj
    rw [mergeBlock]
    apply getD_writeBack_outside arr _ (by omega)
    rcases hj with hj | hj
    · exact Or.inl hj
    · exact Or.inr (by omega)

/-- Claim C6 witness: the first block merge (`m = 1`, `i = 0`) on
`[3, 1, 2, 4]`. -/
theorem claim_C6_witness :
    (1 : Nat) ≤ 1 ∧ (0 : Nat) + 1 < 4 ∧ ((4 : Nat) = ([3, 1, 2, 4] : List Nat).length)
    ∧ (0 : Nat) + 2 * 1 < 2 ^ 32
    ∧ ((mergeDest natLess 4 1 0 [3, 1, 2, 4]).length = min 4 (0 + 2 * 1) - 0
      ∧ 0 + (mergeDest natLess 4 1 0 [3, 1, 2, 4]).length ≤ 4
      ∧ (∀ size : Nat, (mergeDest natLess 4 1 0 [3, 1, 2, 4]).length * size ≤ 4 * size)
      ∧ (mergeBlock natLess 4 1 0 [3, 1, 2, 4]).length = ([3, 1, 2, 4] : List Nat).length
      ∧ ∀ j, j < 0 ∨ min 4 (0 + 2 * 1) ≤ j →
          (mergeBlock natLess 4 1 0 [3, 1, 2, 4]).getD j default
            = ([3, 1, 2, 4] : List Nat).getD j default) :=
  ⟨by norm_num, by norm_num, rfl, by norm_num,
    claim_C6 natLess [3, 1, 2, 4] 4 1 0 (by norm_num) (by norm_num) rfl (by norm_num)⟩

end BaseUtils
